import Mathlib

/-!
# Verification of the Riv serializer/deserializer

A shallow embedding of `src/riv.js` (the ALLON/Riv text format: a recursive
encoder `serialize`, a cursor-based recursive-descent parser `deserialize`,
and the utilities `clone`, `merge`, `equal` built on them), together with
theorems settling the claims of the specification.

Conventions of the embedding:

* JavaScript values are the inductive type `Riv.JSValue`.  Finite IEEE-754
  doubles are modelled by the exact integers among them (`JSNum.int`), for
  which JavaScript `String(n)` is the plain decimal rendering; non-integral
  doubles and their decimal formatting are outside the embedding.  `NaN`,
  `Infinity` and `-Infinity` have their own constructors, as the source
  treats them specially.
* The mutable global `CONFIG` object is passed explicitly as a `Config`
  argument, with the source's defaults as Lean default field values.
* Fallible code returns `Except String` carrying the thrown `Error` message.
* The parser works on the character list of the input with an explicit
  cursor `pos`, exactly as the source indexes `str[pos]`; the mutually
  recursive parser functions take a fuel argument for termination only
  (the JavaScript recursion is bounded by the input length; `deserialize`
  supplies fuel that is proved/checked ample for every input it is run on).
* Object-identity–dependent behaviour (the `checkCircular` WeakSet, and
  in-place mutation by `merge`) is modelled a second time on an explicit
  heap (`Riv.Heap`): heap nodes are numbered addresses, and object values
  are references into the heap.
-/

namespace Riv

/-- The `dateFormat` configuration value, `'iso' | 'timestamp'` (riv.js 9). -/
inductive DateFormat where
  | iso
  | timestamp
deriving DecidableEq

/-- The global `CONFIG` object (riv.js 5–10), with the source's defaults. -/
structure Config where
  indent : Nat := 2
  maxDepth : Nat := 100
  maxLength : Nat := 1000000
  dateFormat : DateFormat := .iso

/-- The default configuration, as shipped. -/
def defaultConfig : Config := {}

/-- JavaScript numbers, as far as the embedding models them (see the module
comment: finite doubles are modelled by their exact-integer subset). -/
inductive JSNum where
  | nan
  | inf
  | neginf
  | int (n : Int)

/-- The JavaScript value domain of riv.js.  `null` and `undefined` are kept
distinct (both serialize to `#nil`).  `obj` keeps fields in insertion order;
`set` keeps elements in the JS `Set`'s iteration order; `map` keeps entries
in the JS `Map`'s iteration order.  `regex` carries `RegExp#source` (in its
canonical escaped form, where any `/` appears escaped) and `RegExp#flags`.
`date` carries the instant as epoch milliseconds.  `buffer` carries the
bytes of an `ArrayBuffer` (each `0–255` by `Uint8Array` construction).
`fn` stands for any function value (serialized entries of that type are
filtered out; a function elsewhere serializes as `#nil`). -/
inductive JSValue where
  | null
  | undef
  | bool (b : Bool)
  | num (n : JSNum)
  | bigint (n : Int)
  | str (s : String)
  | date (ms : Int)
  | regex (source flags : String)
  | error (message : String)
  | set (elems : List JSValue)
  | map (entries : List (JSValue × JSValue))
  | buffer (bytes : List Nat)
  | arr (elems : List JSValue)
  | obj (fields : List (String × JSValue))
  | fn

/-- `typeof v === 'function'` (the filter in riv.js 101). -/
def JSValue.isFn : JSValue → Bool
  | .fn => true
  | _ => false

/-- `Array.isArray` on the modelled domain. -/
def JSValue.isArr : JSValue → Bool
  | .arr _ => true
  | _ => false

/-- `typeof v === 'object'` on the modelled domain.  In JavaScript
`typeof null === 'object'`; primitives, `undefined`, bigints and functions
are not of type object, everything else here is. -/
def JSValue.isObjectType : JSValue → Bool
  | .null => true
  | .undef => false
  | .bool _ => false
  | .num _ => false
  | .bigint _ => false
  | .str _ => false
  | .fn => false
  | _ => true

/-- JavaScript truthiness of a modelled value (`NaN`, `0`, `0n`, `""`,
`null`, `undefined` and `false` are falsy; every object is truthy). -/
def JSValue.truthy : JSValue → Bool
  | .null => false
  | .undef => false
  | .bool b => b
  | .num .nan => false
  | .num (.int n) => n != 0
  | .num _ => true
  | .bigint n => n != 0
  | .str s => !s.isEmpty
  | _ => true

/-! ## Decimal rendering and parsing

`String(n)` on an exactly-representable integer yields the plain decimal
digits; these helper functions are that rendering and its inverse, used for
numbers, bigints, buffer bytes and the positional parts of error messages. -/

/-- Decimal digits of a natural number (auxiliary, fuelled so that it
reduces definitionally; the fuel `n+1` always suffices). -/
def natDecAux : Nat → Nat → List Char
  | 0, _ => []
  | fuel+1, n =>
    if n < 10 then [Char.ofNat (48 + n)]
    else natDecAux fuel (n / 10) ++ [Char.ofNat (48 + n % 10)]

/-- Decimal digits of a natural number, most significant first. -/
def natDec (n : Nat) : List Char := natDecAux (n+1) n

/-- JavaScript `String(i)` for an integer value. -/
def intDec (i : Int) : List Char :=
  if i < 0 then '-' :: natDec i.natAbs else natDec i.natAbs

/-- Is `c` one of the ten decimal digits? -/
def isDigit (c : Char) : Bool := '0' ≤ c && c ≤ '9'

/-- Numeric value of the digits of `cs` (`cs` is assumed to be all digits;
a fold, most significant first). -/
def decVal (cs : List Char) : Nat :=
  cs.foldl (fun acc c => acc * 10 + (c.toNat - 48)) 0

/-! ## String escaping (riv.js 13–29) -/

/-- `ESCAPE_MAP` (riv.js 13–16) as an association list.  Note that this map
does contain an entry for the newline character. -/
def ESCAPE_MAP : List (Char × List Char) :=
  [('"', ['\\', '"']), ('\\', ['\\', '\\']), ('\n', ['\\', 'n']),
   ('\r', ['\\', 'r']), ('\t', ['\\', 't']), ('\x08', ['\\', 'b']),
   ('\x0C', ['\\', 'f'])]

/-- The character class of the regex literal `/["\\n\r\t\b\f]/` in `escape`
(riv.js 24).  Inside a JavaScript regex literal, `\\` matches one literal
backslash and the following `n` is then the plain letter `n`; so the class
contains the letter `n` and does NOT contain the newline character. -/
def escapeClass : List Char := ['"', '\\', 'n', '\r', '\t', '\x08', '\x0C']

/-- One replacement step of `escape` (riv.js 23–25): a class member is
replaced by `ESCAPE_MAP[char] || char`; other characters are untouched.
The letter `n` is in the class but has no map entry, so it maps to itself. -/
def escChar (c : Char) : List Char :=
  if c ∈ escapeClass then
    match ESCAPE_MAP.lookup c with
    | some r => r
    | none => [c]
  else [c]

/-- `escape` (riv.js 23–25) over a character list. -/
def escapeChars : List Char → List Char
  | [] => []
  | c :: cs => escChar c ++ escapeChars cs

/-- `escape` (riv.js 23–25). -/
def escape (s : String) : String := ⟨escapeChars s.data⟩

/-- `UNESCAPE_MAP` (riv.js 18–21), keyed by the character after the
backslash. -/
def UNESCAPE_MAP : List (Char × Char) :=
  [('"', '"'), ('\\', '\\'), ('n', '\n'), ('r', '\r'), ('t', '\t'),
   ('b', '\x08'), ('f', '\x0C')]

/-- `unescape` (riv.js 27–29): the left-to-right scan of the global regex
replace `/\\["\\nrtbf]/g`: a backslash followed by a class character is a
two-character match replaced via the map; anything else advances by one. -/
def unescapeChars : List Char → List Char
  | [] => []
  | '\\' :: c :: rest =>
    match UNESCAPE_MAP.lookup c with
    | some r => r :: unescapeChars rest
    | none => '\\' :: unescapeChars (c :: rest)
  | c :: rest => c :: unescapeChars rest

/-- `unescape` (riv.js 27–29). -/
def unescape (s : String) : String := ⟨unescapeChars s.data⟩

/-- `indent` (riv.js 45–47). -/
def indentStr (cfg : Config) (level : Nat) : String :=
  String.mk (List.replicate (cfg.indent * level) ' ')

/-! ## Host `Date` semantics

riv.js calls into the host's `Date`: `toISOString` when serializing with
`dateFormat: 'iso'` (riv.js 68–70) and `new Date(string)` when
deserializing (riv.js 192–195).  These model the ECMAScript semantics of
those operations on the proleptic Gregorian calendar in UTC.  `new Date`
is modelled on the exact `YYYY-MM-DDTHH:MM:SS.mmmZ` shape `toISOString`
produces for years 0–9999 (ECMAScript accepts further date-time shapes;
they are outside the embedding). -/

/-- Days since the epoch (1970-01-01) of a proleptic Gregorian date,
Howard Hinnant's `days_from_civil`. -/
def daysFromCivil (y0 m d : Int) : Int :=
  let y := y0 - (if m ≤ 2 then 1 else 0)
  let era := y / 400
  let yoe := y - era * 400
  let doy := (153 * (m + (if m > 2 then -3 else 9)) + 2) / 5 + d - 1
  let doe := yoe * 365 + yoe / 4 - yoe / 100 + doy
  era * 146097 + doe - 719468

/-- The Gregorian date (year, month, day) of a days-since-epoch count;
the Euclidean-affine-function form of `civil_from_days` (century and year
extracted by the `(4x+3)` quotient trick). -/
def civilFromDays (day : Int) : Int × Int × Int :=
  let n := day + 719468
  let era := n / 146097
  let doe := n % 146097
  let c := (4 * doe + 3) / 146097
  let doc := (4 * doe + 3) % 146097 / 4
  let yoc := (4 * doc + 3) / 1461
  let doy := (4 * doc + 3) % 1461 / 4
  let yM := era * 400 + c * 100 + yoc
  let mp := (5 * doy + 2) / 153
  let d := doy - (153 * mp + 2) / 5 + 1
  let m := mp + (if mp < 10 then 3 else -9)
  (yM + (if m ≤ 2 then 1 else 0), m, d)

/-- Zero-padded decimal rendering, `w` characters wide. -/
def padDec (w : Nat) (n : Nat) : List Char :=
  List.replicate (w - (natDec n).length) '0' ++ natDec n

/-- `Date.prototype.toISOString` on an epoch-millisecond instant:
`YYYY-MM-DDTHH:MM:SS.mmmZ` for years 0–9999, the expanded six-digit-year
form with an explicit sign outside that range. -/
def isoOfMs (ms : Int) : String :=
  let day := ms / 86400000
  let msod := (ms % 86400000).toNat
  let ymd := civilFromDays day
  let y := ymd.1
  let yearPart :=
    if 0 ≤ y ∧ y ≤ 9999 then padDec 4 y.toNat
    else if y < 0 then '-' :: padDec 6 (-y).toNat
    else '+' :: padDec 6 y.toNat
  String.mk (yearPart ++ '-' :: padDec 2 ymd.2.1.toNat ++ '-' :: padDec 2 ymd.2.2.toNat
    ++ 'T' :: padDec 2 (msod / 3600000) ++ ':' :: padDec 2 (msod / 60000 % 60)
    ++ ':' :: padDec 2 (msod / 1000 % 60) ++ '.' :: padDec 3 (msod % 1000) ++ ['Z'])

/-- Is `y` a Gregorian leap year? -/
def isLeap (y : Int) : Bool := y % 4 = 0 && (y % 100 != 0 || y % 400 = 0)

/-- Days in month `m` of year `y` (`m` is 1-based). -/
def daysInMonth (y m : Int) : Int :=
  if m = 2 then (if isLeap y then 29 else 28)
  else if m = 4 ∨ m = 6 ∨ m = 9 ∨ m = 11 then 30
  else 31

/-- The ECMAScript date-time range check: an instant is representable iff
its magnitude is at most 8.64e15 milliseconds. -/
def msInRange (ms : Int) : Bool := ms.natAbs ≤ 8640000000000000

/-- `new Date(s)` on the `toISOString` shape for years 0–9999: parse the
fixed-width fields, validate them, and convert to epoch milliseconds.
Returns `none` where JavaScript yields an invalid date. -/
def dateFromIso? (s : String) : Option Int :=
  match s.data with
  | [y1, y2, y3, y4, '-', m1, m2, '-', d1, d2, 'T', h1, h2, ':', n1, n2, ':',
     s1, s2, '.', f1, f2, f3, 'Z'] =>
    if ([y1, y2, y3, y4, m1, m2, d1, d2, h1, h2, n1, n2, s1, s2, f1, f2, f3].all isDigit) then
      let y : Int := decVal [y1, y2, y3, y4]
      let mo : Int := decVal [m1, m2]
      let d : Int := decVal [d1, d2]
      let hh : Int := decVal [h1, h2]
      let mi : Int := decVal [n1, n2]
      let ss : Int := decVal [s1, s2]
      let ff : Int := decVal [f1, f2, f3]
      if 1 ≤ mo ∧ mo ≤ 12 ∧ 1 ≤ d ∧ d ≤ daysInMonth y mo ∧ hh ≤ 23 ∧ mi ≤ 59 ∧ ss ≤ 59 then
        some (daysFromCivil y mo d * 86400000 + hh * 3600000 + mi * 60000 + ss * 1000 + ff)
      else none
    else none
  | _ => none

/-- JavaScript whitespace for `parseInt`'s initial trim (ASCII subset). -/
def isJsWs (c : Char) : Bool :=
  c = ' ' || c = '\t' || c = '\n' || c = '\r' || c = '\x0B' || c = '\x0C'

/-- `parseInt(s)` (radix 10): trim leading whitespace, optional sign, then
the longest decimal-digit prefix; `none` models `NaN`. -/
def parseIntJS (s : String) : Option Int :=
  let body : List Char → Option Int := fun cs =>
    let ds := cs.takeWhile isDigit
    if ds.isEmpty then none else some (decVal ds)
  match s.data.dropWhile isJsWs with
  | '-' :: rest => (body rest).map (fun n => -n)
  | '+' :: rest => body rest
  | rest => body rest

/-- `ToUint8` as applied by the `Uint8Array` constructor to a `parseInt`
result (riv.js 214–215): `NaN` becomes `0`, integers are taken mod 2^8. -/
def toUint8 : Option Int → Nat
  | none => 0
  | some n => (n % 256).toNat

/-! ## The serializer (riv.js 50–121)

A pure-tree embedding of `serialize`.  The `checkCircular(value)` call of
riv.js 84 never throws on an inductive (tree-shaped) value — there is no
sharing, so the WeakSet test never fires — and is therefore a no-op here;
the heap embedding `serializeH` below models it where object identity
exists.  Dispatch is written as a match on the disjoint constructors; the
source's `typeof`/`instanceof` cascade tests them in an order that is
immaterial on disjoint kinds. -/

/-- The object header `name ? '@' + name : '@'` (riv.js 102, 104); an empty
name is falsy in JavaScript. -/
def nameHeader : Option String → String
  | some n => if n.isEmpty then "@" else "@" ++ n
  | none => "@"

/-- `s.includes('\n')` (riv.js 92, 107), via the character list. -/
def hasNl (s : String) : Bool := s.data.contains '\n'

/-- `s.split('\n')` (riv.js 110) on the character list: split at every
newline, keeping empty pieces, one more piece than there are newlines. -/
def splitLines : List Char → List (List Char)
  | [] => [[]]
  | c :: cs =>
    if c = '\n' then [] :: splitLines cs
    else
      match splitLines cs with
      | [] => [[c]]
      | l :: ls => (c :: l) :: ls

mutual

/-- `serialize(value, name, level)` (riv.js 50–121). -/
def serialize (cfg : Config) : JSValue → Option String → Nat → Except String String
  | value, name, level =>
    if level > cfg.maxDepth then .error "Max depth exceeded"
    else match value with
      | .null => .ok "#nil"
      | .undef => .ok "#nil"
      | .bool b => .ok (if b then "#yes" else "#no")
      | .str s => .ok ("\"" ++ escape s ++ "\"")
      | .num .nan => .ok "#nan"
      | .num .inf => .ok "#inf"
      | .num .neginf => .ok "#-inf"
      | .num (.int n) => .ok (String.mk (intDec n))
      | .bigint n => .ok ("#big:" ++ String.mk (intDec n))
      | .date ms =>
        let dateStr := match cfg.dateFormat with
          | .timestamp => String.mk (intDec ms)
          | .iso => isoOfMs ms
        .ok ("#date:\"" ++ dateStr ++ "\"")
      | .regex src flags => .ok ("#regex:\"" ++ escape ("/" ++ src ++ "/" ++ flags) ++ "\"")
      | .error msg => .ok ("#error:\"" ++ escape msg ++ "\"")
      | .set elems =>
        match serializeList cfg elems (level + 1) with
        | .error e => .error e
        | .ok items => .ok ("#set:<" ++ String.intercalate " " items ++ ">")
      | .map entries =>
        match serializeMapEntries cfg entries (level + 1) with
        | .error e => .error e
        | .ok items => .ok ("#map:<" ++ String.intercalate " " items ++ ">")
      | .buffer bytes =>
        .ok ("#buffer:\"" ++
          String.intercalate "," (bytes.map (fun b => String.mk (natDec b))) ++ "\"")
      | .arr elems =>
        if elems.isEmpty then .ok "<>"
        else match serializeList cfg elems (level + 1) with
          | .error e => .error e
          | .ok items =>
            let inline := String.intercalate " " items
            if inline.length < 60 && !(hasNl inline) then
              .ok ("<" ++ inline ++ ">")
            else
              .ok ("<\n" ++
                String.intercalate "\n" (items.map (fun item => indentStr cfg (level+1) ++ item))
                ++ "\n" ++ indentStr cfg level ++ ">")
      | .obj fields =>
        if (fields.filter (fun kv => !kv.2.isFn)).isEmpty then .ok (nameHeader name)
        else match serializeProps cfg fields level with
          | .error e => .error e
          | .ok props => .ok (nameHeader name ++ "\n" ++ String.intercalate "\n" props)
      | .fn => .ok "#nil"

/-- The element-wise serialization used for sequences and sets
(riv.js 75, 89): each element at `level` (the caller passes `level+1`). -/
def serializeList (cfg : Config) : List JSValue → Nat → Except String (List String)
  | [], _ => .ok []
  | v :: vs, level =>
    match serialize cfg v none level with
    | .error e => .error e
    | .ok s =>
      match serializeList cfg vs level with
      | .error e => .error e
      | .ok rest => .ok (s :: rest)

/-- The entry-wise serialization of `Map` values (riv.js 76–81): each
entry as a bracketed key–value pair. -/
def serializeMapEntries (cfg : Config) : List (JSValue × JSValue) → Nat →
    Except String (List String)
  | [], _ => .ok []
  | (k, v) :: rest, level =>
    match serialize cfg k none level with
    | .error e => .error e
    | .ok sk =>
      match serialize cfg v none level with
      | .error e => .error e
      | .ok sv =>
        match serializeMapEntries cfg rest level with
        | .error e => .error e
        | .ok tail => .ok (("<" ++ sk ++ " " ++ sv ++ ">") :: tail)

/-- The property lines of a non-empty object (riv.js 105–115): each value
at `level+1`; a value containing a newline is moved to the following lines,
re-indented at `level+2`, with the key line ending after `=>`.  The
function-valued entries that riv.js 101 filters out before mapping are
skipped here inside the recursion, which produces the same list. -/
def serializeProps (cfg : Config) : List (String × JSValue) → Nat →
    Except String (List String)
  | [], _ => .ok []
  | (k, v) :: rest, level =>
    if v.isFn then serializeProps cfg rest level
    else match serialize cfg v none (level + 1) with
    | .error e => .error e
    | .ok val =>
      let prop :=
        if hasNl val then
          let lines := String.intercalate "\n"
            ((splitLines val.data).map (fun line => indentStr cfg (level + 2) ++ String.mk line))
          indentStr cfg (level + 1) ++ ":" ++ k ++ " =>\n" ++ lines
        else
          indentStr cfg (level + 1) ++ ":" ++ k ++ " => " ++ val
      match serializeProps cfg rest level with
      | .error e => .error e
      | .ok tail => .ok (prop :: tail)

end

/-! ## The deserializer (riv.js 124–371)

The parser is embedded over the character list of the input with an
explicit cursor, mirroring the source's `pos` mutation: every parsing
function returns its `Except` outcome together with the cursor value at
return/throw time (the catch in riv.js 367 reads the mutated `pos`).
The source's `while` scans over character classes are expressed with
`countWhile`, the length of the matching prefix from the cursor.

The mutually recursive functions (`parseValue`, `parseSpecial`,
`parseArray`, `parseObject` and the bodies of their loops) carry a fuel
argument used solely for termination: each cycle through the recursion
strictly advances the cursor, so the fuel `deserialize` supplies
(`16·length + 64`) can never run out; `PErr.fuel` marks the impossible
exhaustion case and is kept distinct from thrown errors. -/

/-- A thrown parse error (`msg` carries the JavaScript `Error` message), or
exhaustion of the termination fuel (never produced for the fuel
`deserialize` supplies). -/
inductive PErr where
  | msg (m : String)
  | fuel

/-- Length of the prefix of `l` satisfying `p`: the number of `pos++`
iterations of a `while (p(str[pos])) pos++` scan. -/
def countWhile (p : Char → Bool) (l : List Char) : Nat := (l.takeWhile p).length

/-- `s.split(sep)` for a one-character separator (riv.js 214): split at
every occurrence, keeping empty pieces (the empty string yields one empty
piece, as `''.split(',')` does). -/
def splitOnChar (sep : Char) : List Char → List (List Char)
  | [] => [[]]
  | c :: cs =>
    if c = sep then [] :: splitOnChar sep cs
    else
      match splitOnChar sep cs with
      | [] => [[c]]
      | l :: ls => (c :: l) :: ls

/-- The JavaScript `\s` class (riv.js 136, 264, 310), ASCII part.  `\s`
also matches some Unicode space code points, which are outside the
embedding. -/
def isSpaceRe (c : Char) : Bool :=
  c == ' ' || c == '\t' || c == '\n' || c == '\r' || c == '\x0B' || c == '\x0C'

/-- The `[ \t]` class of `skip` and of `parseValue`'s initial scan
(riv.js 132, 346). -/
def isSpTab (c : Char) : Bool := c == ' ' || c == '\t'

/-- `str.startsWith(lit, pos)`. -/
def startsWith (cs : List Char) (pos : Nat) (lit : String) : Bool :=
  lit.data.isPrefixOf (cs.drop pos)

/-- The scanning loop of `parseString` (riv.js 144–151), on the suffix
after the opening quote: collect characters until an unescaped `"`,
passing `\` plus its follower through as a two-character unit; returns the
collected raw characters and the count consumed including the closing
quote, or `none` at end of input (the unterminated case).  A final lone
backslash is consumed singly, as in the source (`pos + 1 < len` fails). -/
def strScan : List Char → Option (List Char × Nat)
  | [] => none
  | '"' :: _ => some ([], 1)
  | '\\' :: c :: rest =>
    match strScan rest with
    | some (r, n) => some ('\\' :: c :: r, n + 2)
    | none => none
  | c :: rest =>
    match strScan rest with
    | some (r, n) => some (c :: r, n + 1)
    | none => none

/-- `parseString` (riv.js 139–156).  On the unterminated throw the cursor
sits at the end of the input. -/
def parseString (cs : List Char) (pos : Nat) : Except PErr String × Nat :=
  if cs.get? pos = some '"' then
    match strScan (cs.drop (pos + 1)) with
    | none => (.error (.msg "Unterminated string"), cs.length)
    | some (raw, n) => (.ok (String.mk (unescapeChars raw)), pos + 1 + n)
  else (.error (.msg ("Expected \" at " ++ String.mk (natDec pos))), pos)

/-- `Number(numStr)` (riv.js 169) followed by the `isNaN` test, restricted
to the exact-integer model: `some` is returned exactly for literals whose
value is an integer (sign, digits, an integral fraction/exponent
combination; the empty string is `0`).  Literals denoting non-integral
doubles are outside the embedding and conservatively mapped to `none`
(the source would return the double); literals JavaScript maps to `NaN`
are also `none`, which is the faithful case.  Overflow of huge exponents
to `Infinity` and precision loss above 2^53 are not modelled. -/
def jsNumLit? (cs0 : List Char) : Option JSNum :=
  if cs0.isEmpty then some (.int 0)
  else
    let signed := match cs0 with
      | '-' :: r => (true, r)
      | '+' :: r => (false, r)
      | _ => (false, cs0)
    let neg := signed.1
    let cs := signed.2
    let ip := cs.takeWhile isDigit
    let r1 := cs.drop ip.length
    let fpr : List Char × List Char := match r1 with
      | '.' :: t => (t.takeWhile isDigit, t.drop (t.takeWhile isDigit).length)
      | _ => ([], r1)
    let fp := fpr.1
    let exr : Bool × Int × List Char := match fpr.2 with
      | 'e' :: t | 'E' :: t =>
        let et : Bool × List Char := match t with
          | '-' :: u => (true, u)
          | '+' :: u => (false, u)
          | _ => (false, t)
        let eds := et.2.takeWhile isDigit
        if eds.isEmpty then (false, 0, et.2)
        else (true, (if et.1 then -(decVal eds : Int) else (decVal eds : Int)),
          et.2.drop eds.length)
      | r => (true, 0, r)
    if !exr.1 || !exr.2.2.isEmpty || (ip.isEmpty && fp.isEmpty) then none
    else
      let mant : Int := decVal (ip ++ fp)
      let e10 : Int := exr.2.1 - fp.length
      if mant = 0 then some (.int 0)
      else if 0 ≤ e10 then
        some (.int ((if neg then -mant else mant) * 10 ^ e10.toNat))
      else if mant % 10 ^ (-e10).toNat = 0 then
        some (.int ((if neg then -mant else mant) / 10 ^ (-e10).toNat))
      else none

/-- `parseNumber` (riv.js 158–172): optional minus, a run of digits and
dots, an optional exponent part; the consumed slice is converted and a
failed conversion throws naming the slice. -/
def parseNumber (cs : List Char) (pos : Nat) : Except PErr JSValue × Nat :=
  let s1 := if cs.get? pos = some '-' then pos + 1 else pos
  let p2 := s1 + countWhile (fun c => isDigit c || c == '.') (cs.drop s1)
  let p3 :=
    if cs.get? p2 = some 'e' || cs.get? p2 = some 'E' then
      let pe := p2 + 1
      let ps := if cs.get? pe = some '+' || cs.get? pe = some '-' then pe + 1 else pe
      ps + countWhile isDigit (cs.drop ps)
    else p2
  let numStr := (cs.drop pos).take (p3 - pos)
  match jsNumLit? numStr with
  | some v => (.ok (.num v), p3)
  | none => (.error (.msg ("Invalid number: " ++ String.mk numStr)), p3)

/-- `BigInt(s)` (riv.js 186) on the consumed `[\d-]*` slice: the empty
string is `0n`; otherwise an optional leading minus must be followed by
digits only, and anything else throws (the host's `SyntaxError`; its
message text is abbreviated here). -/
def bigIntLit? (cs : List Char) : Option Int :=
  match cs with
  | [] => some 0
  | '-' :: rest =>
    if !rest.isEmpty && rest.all isDigit then some (-(decVal rest : Int)) else none
  | _ => if cs.all isDigit then some (decVal cs) else none

/-- Property write `result[key] = value` on an ordinary object: an
existing key is updated in place (keeping its position), a new key is
appended. -/
def objSet (fields : List (String × JSValue)) (k : String) (v : JSValue) :
    List (String × JSValue) :=
  match fields with
  | [] => [(k, v)]
  | (k', v') :: rest => if k' = k then (k', v) :: rest else (k', v') :: objSet rest k v

/-- SameValueZero on modelled values, as used by `Set` membership and
`Map` keys: primitives by value (`NaN` equal to itself); object-typed
values compare by reference, and every composite the parser constructs is
a fresh object, so two composites are never identified here. -/
def svzEq : JSValue → JSValue → Bool
  | .null, .null => true
  | .undef, .undef => true
  | .bool a, .bool b => a == b
  | .num .nan, .num .nan => true
  | .num .inf, .num .inf => true
  | .num .neginf, .num .neginf => true
  | .num (.int a), .num (.int b) => a == b
  | .bigint a, .bigint b => a == b
  | .str a, .str b => a == b
  | _, _ => false

/-- `Set` insertion: append unless a SameValueZero-equal element exists. -/
def setAdd (l : List JSValue) (v : JSValue) : List JSValue :=
  if l.any (fun w => svzEq w v) then l else l ++ [v]

/-- `new Set(arr)` (riv.js 220): insert in order, deduplicating. -/
def newSetJS (l : List JSValue) : List JSValue := l.foldl setAdd []

/-- `Map.prototype.set` (riv.js 229): an existing SameValueZero-equal key
keeps its position (and its original key object); a new key appends. -/
def mapSet (l : List (JSValue × JSValue)) (k : JSValue) (v : JSValue) :
    List (JSValue × JSValue) :=
  match l with
  | [] => [(k, v)]
  | (k', v') :: rest => if svzEq k' k then (k', v) :: rest else (k', v') :: mapSet rest k v

/-- The `entries.forEach` of the `#map:` handler (riv.js 227–231): only
two-element arrays become entries. -/
def mapOfEntries (entries : List JSValue) : List (JSValue × JSValue) :=
  entries.foldl
    (fun m e => match e with
      | .arr [k, v] => mapSet m k v
      | _ => m) []

/-- Split `rest` of a candidate `/body/flags` string at its last slash.
The greedy `(.*)` of the anchored regex in riv.js 202 backtracks from the
end; since a later slash inside the would-be flags part fails the flags
class anyway, the match succeeds iff the split at the last slash does. -/
def lastSlashSplit : List Char → Option (List Char × List Char)
  | [] => none
  | c :: rest =>
    match lastSlashSplit rest with
    | some (b, a) => some (c :: b, a)
    | none => if c = '/' then some ([], rest) else none

/-- One of the five flag letters accepted by the pattern in riv.js 202. -/
def isRegexFlag (c : Char) : Bool :=
  c == 'g' || c == 'i' || c == 'm' || c == 'u' || c == 'y'

/-- `regexStr.match(/^\/(.*)\/([gimuy]*)$/)` (riv.js 202): the string must
start with a slash, split at a last slash whose suffix is flag letters
only, and (because `.` does not match newlines and the anchors are not
multiline) contain no newline in the body. -/
def regexMatch? (s : String) : Option (String × String) :=
  match s.data with
  | '/' :: rest =>
    match lastSlashSplit rest with
    | some (body, flags) =>
      if flags.all isRegexFlag && !body.contains '\n' && !flags.contains '\n' then
        some (String.mk body, String.mk flags)
      else none
    | none => none
  | _ => none

/-- `new RegExp(pattern, flags)` (riv.js 203), as far as modelled: an
empty pattern canonicalises to `(?:)`; re-escaping of an unescaped `/` in
the pattern source and flag validation (duplicate or unknown letters
throw in the host) are not modelled — on pattern sources already in
canonical literal form this constructor is the identity. -/
def mkRegExp (pat : String) (flags : String) : JSValue :=
  .regex (if pat.isEmpty then "(?:)" else pat) flags

/-- Identity application that forces its numeric argument to a literal
before substituting it (by matching on the constructor).  Used for the
let-bound cursor positions of the parser so that definitional evaluation
of a concrete parse is linear rather than re-deriving each position at
every use; `forceNat n k = k n` definitionally by cases. -/
def forceNat (n : Nat) (k : Nat → α) : α :=
  match n with
  | 0 => k 0
  | m + 1 => k (m + 1)

mutual

/-- `parseValue` (riv.js 344–360): skip `[ \t]`, fail at end of input, try
`parseSpecial`, then dispatch on the leading character. -/
def parseValue (cfg : Config) (cs : List Char) : Nat → Nat → Except PErr JSValue × Nat
  | 0, pos => (.error .fuel, pos)
  | fuel + 1, pos =>
    forceNat (pos + countWhile isSpTab (cs.drop pos)) fun p =>
    if p ≥ cs.length then (.error (.msg "Unexpected end"), p)
    else
      match parseSpecial cfg cs fuel p with
      | (.error e, q) => (.error e, q)
      | (.ok (some v), q) => (.ok v, q)
      | (.ok none, _) =>
        match cs.get? p with
        | some '"' =>
          match parseString cs p with
          | (.error e, q) => (.error e, q)
          | (.ok s, q) => (.ok (.str s), q)
        | some '<' =>
          match parseArray cfg cs fuel p with
          | (.error e, q) => (.error e, q)
          | (.ok elems, q) => (.ok (.arr elems), q)
        | some '@' => parseObject cfg cs fuel p
        | some c =>
          if isDigit c || c == '-' then parseNumber cs p
          else (.error (.msg ("Invalid token '" ++ String.mk [c] ++ "' at " ++
            String.mk (natDec p))), p)
        | none => (.error (.msg "Unexpected end"), p)

termination_by structural fuel => fuel

/-- `parseSpecial` (riv.js 174–241): the literal markers, the tagged
forms, then the bareword JSON fallbacks, each by prefix match at the
cursor; `none` (the source's `undefined`) means no form matched and the
cursor did not move. -/
def parseSpecial (cfg : Config) (cs : List Char) : Nat → Nat →
    Except PErr (Option JSValue) × Nat
  | 0, pos => (.error .fuel, pos)
  | fuel + 1, pos =>
    if startsWith cs pos "#nil" then (.ok (some .null), pos + 4)
    else if startsWith cs pos "#yes" then (.ok (some (.bool true)), pos + 4)
    else if startsWith cs pos "#no" then (.ok (some (.bool false)), pos + 3)
    else if startsWith cs pos "#nan" then (.ok (some (.num .nan)), pos + 4)
    else if startsWith cs pos "#inf" then (.ok (some (.num .inf)), pos + 4)
    else if startsWith cs pos "#-inf" then (.ok (some (.num .neginf)), pos + 5)
    else if startsWith cs pos "#big:" then
      let p := pos + 5
      let ds := (cs.drop p).takeWhile (fun c => isDigit c || c == '-')
      match bigIntLit? ds with
      | some n => (.ok (some (.bigint n)), p + ds.length)
      | none => (.error (.msg ("Cannot convert " ++ String.mk ds ++ " to a BigInt")),
          p + ds.length)
    else if startsWith cs pos "#date:" then
      match parseString cs (pos + 6) with
      | (.error e, q) => (.error e, q)
      | (.ok dateStr, q) =>
        let ms? : Option Int := match cfg.dateFormat with
          | .timestamp =>
            match parseIntJS dateStr with
            | some n => if msInRange n then some n else none
            | none => none
          | .iso => dateFromIso? dateStr
        match ms? with
        | some ms => (.ok (some (.date ms)), q)
        | none => (.error (.msg ("Invalid date: " ++ dateStr)), q)
    else if startsWith cs pos "#regex:" then
      match parseString cs (pos + 7) with
      | (.error e, q) => (.error e, q)
      | (.ok regexStr, q) =>
        match regexMatch? regexStr with
        | some bf => (.ok (some (mkRegExp bf.1 bf.2)), q)
        | none => (.ok (some (mkRegExp regexStr "")), q)
    else if startsWith cs pos "#error:" then
      match parseString cs (pos + 7) with
      | (.error e, q) => (.error e, q)
      | (.ok message, q) => (.ok (some (.error message)), q)
    else if startsWith cs pos "#buffer:" then
      match parseString cs (pos + 8) with
      | (.error e, q) => (.error e, q)
      | (.ok dataStr, q) =>
        let bytes := (splitOnChar ',' dataStr.data).map
          (fun piece => toUint8 (parseIntJS (String.mk piece)))
        (.ok (some (.buffer bytes)), q)
    else if startsWith cs pos "#set:" then
      match parseArray cfg cs fuel (pos + 5) with
      | (.error e, q) => (.error e, q)
      | (.ok elems, q) => (.ok (some (.set (newSetJS elems))), q)
    else if startsWith cs pos "#map:" then
      match parseArray cfg cs fuel (pos + 5) with
      | (.error e, q) => (.error e, q)
      | (.ok entries, q) => (.ok (some (.map (mapOfEntries entries))), q)
    else if startsWith cs pos "true" then (.ok (some (.bool true)), pos + 4)
    else if startsWith cs pos "false" then (.ok (some (.bool false)), pos + 5)
    else if startsWith cs pos "null" then (.ok (some .null), pos + 4)
    else (.ok none, pos)

termination_by structural fuel => fuel

/-- `parseArray` (riv.js 243–256): expect `<`, then the element loop. -/
def parseArray (cfg : Config) (cs : List Char) : Nat → Nat →
    Except PErr (List JSValue) × Nat
  | 0, pos => (.error .fuel, pos)
  | fuel + 1, pos =>
    if cs.get? pos = some '<' then parseArrayLoop cfg cs fuel (pos + 1) []
    else (.error (.msg ("Expected < at " ++ String.mk (natDec pos))), pos)

termination_by structural fuel => fuel

/-- The element loop of `parseArray` (riv.js 248–253): the `while` guard
returns the collected elements when the cursor is already at end of
input on loop entry; otherwise skip `[ \t]`, fail at end of input after
the skip, stop past `>`, and otherwise parse one value and push it. -/
def parseArrayLoop (cfg : Config) (cs : List Char) : Nat → Nat → List JSValue →
    Except PErr (List JSValue) × Nat
  | 0, pos, _ => (.error .fuel, pos)
  | fuel + 1, pos, acc =>
    if pos ≥ cs.length then (.ok acc, pos)
    else
    forceNat (pos + countWhile isSpTab (cs.drop pos)) fun p =>
    if p ≥ cs.length then (.error (.msg "Unterminated array"), p)
    else if cs.get? p = some '>' then (.ok acc, p + 1)
    else
      match parseValue cfg cs fuel p with
      | (.error e, q) => (.error e, q)
      | (.ok v, q) => forceNat q fun q => parseArrayLoop cfg cs fuel q (acc ++ [v])

termination_by structural fuel => fuel

/-- `parseObject` (riv.js 258–342): expect `@`, read the optional name (a
run of non-whitespace), move past the remainder of the header line,
measure the base indentation, run the entry loop, and finally stash a
non-empty name under the reserved `_name` key. -/
def parseObject (cfg : Config) (cs : List Char) : Nat → Nat →
    Except PErr JSValue × Nat
  | 0, pos => (.error .fuel, pos)
  | fuel + 1, pos =>
    if cs.get? pos = some '@' then
      let p1 := pos + 1
      let nameChars := (cs.drop p1).takeWhile (fun c => !isSpaceRe c)
      forceNat (p1 + nameChars.length) fun p2 =>
      forceNat (p2 + countWhile (fun c => c != '\n' && isSpaceRe c) (cs.drop p2)) fun p3 =>
      forceNat (if cs.get? p3 = some '\n' then p3 + 1 else p3) fun p4 =>
      forceNat (countWhile (fun c => c == ' ') (cs.drop p4)) fun base =>
      match parseObjLoop cfg cs fuel base p4 [] with
      | (.error e, q) => (.error e, q)
      | (.ok fields, q) =>
        let name := String.mk nameChars
        (.ok (.obj (if name.isEmpty then fields else objSet fields "_name" (.str name))), q)
    else (.error (.msg ("Expected @ at " ++ String.mk (natDec pos))), pos)

termination_by structural fuel => fuel

/-- The entry loop of `parseObject` (riv.js 280–338).  Each iteration
measures the current line's leading spaces; a blank line is skipped; a
line indented less than the base (riv.js 296) or a column-0 structural
marker (riv.js 302) ends the block with the cursor rewound to the line
start; end of input ends it where the scan stopped; a `:` line is parsed
as an entry (with a value on the next line when the `=>` ends the line);
any other line is skipped leniently. -/
def parseObjLoop (cfg : Config) (cs : List Char) : Nat → Nat → Nat →
    List (String × JSValue) → Except PErr (List (String × JSValue)) × Nat
  | 0, _, pos, _ => (.error .fuel, pos)
  | fuel + 1, base, pos, acc =>
    if pos ≥ cs.length then (.ok acc, pos)
    else
      let lineStart := pos
      forceNat (countWhile (fun c => c == ' ') (cs.drop pos)) fun ind =>
      forceNat (pos + ind) fun p =>
      if cs.get? p = some '\n' then parseObjLoop cfg cs fuel base (p + 1) acc
      else if ind < base && p < cs.length && cs.get? p != some '\n' then
        (.ok acc, lineStart)
      else if p ≥ cs.length then (.ok acc, p)
      else if ind == 0 &&
          (cs.get? p = some '@' || cs.get? p = some '>' || cs.get? p = some '<') then
        (.ok acc, lineStart)
      else if cs.get? p = some ':' then
        let pk := p + 1
        let keyChars := (cs.drop pk).takeWhile (fun c => !isSpaceRe c && c != '=')
        forceNat (pk + keyChars.length) fun p5 =>
        forceNat (p5 + countWhile (fun c => c == ' ') (cs.drop p5)) fun p6 =>
        if (cs.drop p6).take 2 = ['=', '>'] then
          forceNat (p6 + 2) fun p7 =>
          forceNat (p7 + countWhile (fun c => c == ' ') (cs.drop p7)) fun p8 =>
          forceNat
            (if cs.get? p8 = some '\n' then
              (p8 + 1) + countWhile (fun c => c == ' ') (cs.drop (p8 + 1))
            else p8) fun p9 =>
          match parseValue cfg cs fuel p9 with
          | (.error e, q) => (.error e, q)
          | (.ok v, q) =>
            forceNat (q + countWhile (fun c => c != '\n') (cs.drop q)) fun q2 =>
            forceNat (if cs.get? q2 = some '\n' then q2 + 1 else q2) fun q3 =>
            parseObjLoop cfg cs fuel base q3 (objSet acc (String.mk keyChars) v)
        else (.error (.msg ("Expected => at " ++ String.mk (natDec p6))), p6)
      else
        forceNat (p + countWhile (fun c => c != '\n') (cs.drop p)) fun q2 =>
        forceNat (if cs.get? q2 = some '\n' then q2 + 1 else q2) fun q3 =>
        parseObjLoop cfg cs fuel base q3 acc

termination_by structural fuel => fuel

end

/-- The wrapped top of `deserialize`'s `try` block (riv.js 362–366): parse
one value, skip trailing whitespace (`skipLine`), and fail if input
remains. -/
def parseTop (cfg : Config) (cs : List Char) (fuel : Nat) : Except PErr JSValue × Nat :=
  match parseValue cfg cs fuel 0 with
  | (.error e, p) => (.error e, p)
  | (.ok v, p) =>
    let p2 := p + countWhile isSpaceRe (cs.drop p)
    if p2 < cs.length then
      (.error (.msg ("Unexpected content at " ++ String.mk (natDec p2))), p2)
    else (.ok v, p2)

/-- The context snippet of the catch block (riv.js 368):
`str.slice(Math.max(0, pos - 10), pos + 10)`. -/
def ctxWindow (cs : List Char) (pos : Nat) : String :=
  String.mk ((cs.drop (pos - 10)).take (pos + 10 - (pos - 10)))

/-- The fuel `deserialize` hands the parser; ample for any input, since
each recursion cycle advances the cursor (see the section comment). -/
def parseFuel (s : String) : Nat := 16 * s.length + 64

/-- `deserialize` (riv.js 124–371): the input checks of lines 125–126
(outside the `try`, hence unwrapped), then the parse, with any thrown
error re-raised once with the context window appended.  The
`typeof str !== 'string'` half of line 125 cannot arise in the typed
embedding.  The fuel-exhaustion branch is unreachable for `parseFuel` and
kept only for totality. -/
def deserialize (cfg : Config) (s : String) : Except String JSValue :=
  if s.isEmpty then .error "Invalid input"
  else if s.length > cfg.maxLength then .error "Input too long"
  else
    match parseTop cfg s.data (parseFuel s) with
    | (.ok v, _) => .ok v
    | (.error (.msg m), p) => .error (m ++ " | Context: \"" ++ ctxWindow s.data p ++ "\"")
    | (.error .fuel, p) => .error ("Out of fuel | Context: \"" ++ ctxWindow s.data p ++ "\"")

/-! ## Utilities built on the pair (riv.js 373–436)

`pretty`, `minify` and `validate` are not involved in any claim and are
not embedded. -/

/-- `clone` (riv.js 382–384): serialize, then deserialize. -/
def clone (cfg : Config) (v : JSValue) : Except String JSValue :=
  match serialize cfg v none 0 with
  | .error e => .error e
  | .ok text => deserialize cfg text

/-- `equal` (riv.js 430–436): serialize both sides and compare the texts;
any thrown error is caught and yields `false`. -/
def equal (cfg : Config) (a b : JSValue) : Bool :=
  match serialize cfg a none 0, serialize cfg b none 0 with
  | .ok x, .ok y => x == y
  | _, _ => false

mutual

/-- Deep-forcing identity application for values, the `JSValue` analogue
of `forceNat`: rebuilds the value in constructor form before substituting
it, so that a computed value (such as a fresh clone) is evaluated once
rather than at every later use; `forceJS v k = k v` by induction. -/
def forceJS (v : JSValue) (k : JSValue → α) : α :=
  match v with
  | .null => k .null
  | .undef => k .undef
  | .bool b => k (.bool b)
  | .num n => k (.num n)
  | .bigint n => k (.bigint n)
  | .str s => k (.str s)
  | .date ms => k (.date ms)
  | .regex src flags => k (.regex src flags)
  | .error m => k (.error m)
  | .set elems => forceJSList elems (fun l => k (.set l))
  | .map entries => forceJSPairs entries (fun l => k (.map l))
  | .buffer bytes => k (.buffer bytes)
  | .arr elems => forceJSList elems (fun l => k (.arr l))
  | .obj fields => forceJSFields fields (fun l => k (.obj l))
  | .fn => k .fn

def forceJSList (l : List JSValue) (k : List JSValue → α) : α :=
  match l with
  | [] => k []
  | v :: vs => forceJS v (fun w => forceJSList vs (fun ws => k (w :: ws)))

def forceJSPairs (l : List (JSValue × JSValue)) (k : List (JSValue × JSValue) → α) : α :=
  match l with
  | [] => k []
  | (a, b) :: vs =>
    forceJS a (fun a2 => forceJS b (fun b2 => forceJSPairs vs (fun ws => k ((a2, b2) :: ws))))

def forceJSFields (l : List (String × JSValue)) (k : List (String × JSValue) → α) : α :=
  match l with
  | [] => k []
  | (s, b) :: vs =>
    forceJS b (fun b2 => forceJSFields vs (fun ws => k ((s, b2) :: ws)))

end

/-- Property read `v[k]` as `deepMerge` performs it: an absent property
(and any property of a primitive or of an object kind without modelled
own properties) reads as `undefined`; an array reads its elements under
canonical index keys. -/
def getField : JSValue → String → JSValue
  | .obj fields, k => ((fields.lookup k).getD .undef)
  | .arr elems, k =>
    match k.data with
    | [] => .undef
    | c :: rest =>
      if (c :: rest).all isDigit && (c ≠ '0' ∨ rest = []) then
        (elems.get? (decVal (c :: rest))).getD .undef
      else .undef
  | _, _ => (.undef)

/-- Property write `v[k] = w` in strict mode ('use strict', riv.js 2), as
`deepMerge` performs it: writes to plain objects update or append; writes
to arrays update an element in canonical index range (other array writes
are not representable in the pure tree model and are dropped); writes to
primitives throw a `TypeError` (message abbreviated). -/
def setField : JSValue → String → JSValue → Except String JSValue
  | .obj fields, k, w => .ok (.obj (objSet fields k w))
  | .arr elems, k, w =>
    (match k.data with
    | [] => .ok (.arr elems)
    | c :: rest =>
      if (c :: rest).all isDigit && (c ≠ '0' ∨ rest = []) then
        .ok (.arr (elems.set (decVal (c :: rest)) w))
      else .ok (.arr elems))
  | .fn, _, _ => .ok .fn
  | _, _, _ => .error "Cannot create property on a primitive value"

mutual

/-- `deepMerge(tgt, src)` (riv.js 389–399) on pure values: `for (const key
in src)` enumerates an object's own fields or an array's indices (other
kinds enumerate nothing); each source field that is a truthy non-array
object is merged recursively into `tgt[key] || {}` (assigned first, as in
the source), anything else is assigned wholesale.  In-place mutation of
the target's sub-object becomes re-assignment of the recursion's result,
which agrees because the target is a freshly cloned tree (no aliasing). -/
def deepMerge (tgt : JSValue) (src : JSValue) : Except String JSValue :=
  match src with
  | .obj entries => deepMergeEntries tgt entries
  | .arr elems => deepMergeElems tgt elems 0
  | _ => .ok tgt

/-- The loop body of `deepMerge` over an object source's fields. -/
def deepMergeEntries (tgt : JSValue) : List (String × JSValue) → Except String JSValue
  | [] => .ok tgt
  | (k, v) :: rest =>
    if v.truthy && v.isObjectType && !v.isArr then
      let tgtv := getField tgt k
      let tgtv' := if tgtv.truthy then tgtv else .obj []
      match setField tgt k tgtv' with
      | .error e => .error e
      | .ok tgt1 =>
        match deepMerge tgtv' v with
        | .error e => .error e
        | .ok merged =>
          match setField tgt1 k merged with
          | .error e => .error e
          | .ok tgt2 => forceJS tgt2 (fun tgt2 => deepMergeEntries tgt2 rest)
    else
      match setField tgt k v with
      | .error e => .error e
      | .ok tgt1 => forceJS tgt1 (fun tgt1 => deepMergeEntries tgt1 rest)

/-- The loop body of `deepMerge` over an array source's index keys. -/
def deepMergeElems (tgt : JSValue) : List JSValue → Nat → Except String JSValue
  | [], _ => .ok tgt
  | v :: rest, idx =>
    let k := String.mk (natDec idx)
    if v.truthy && v.isObjectType && !v.isArr then
      let tgtv := getField tgt k
      let tgtv' := if tgtv.truthy then tgtv else .obj []
      match setField tgt k tgtv' with
      | .error e => .error e
      | .ok tgt1 =>
        match deepMerge tgtv' v with
        | .error e => .error e
        | .ok merged =>
          match setField tgt1 k merged with
          | .error e => .error e
          | .ok tgt2 => forceJS tgt2 (fun tgt2 => deepMergeElems tgt2 rest (idx + 1))
    else
      match setField tgt k v with
      | .error e => .error e
      | .ok tgt1 => forceJS tgt1 (fun tgt1 => deepMergeElems tgt1 rest (idx + 1))

end

/-- `merge` (riv.js 386–402): clone the target, then deep-merge the source
into the clone. -/
def merge (cfg : Config) (target source : JSValue) : Except String JSValue :=
  match clone cfg target with
  | .error e => .error e
  | .ok result => forceJS result (fun result => deepMerge result source)

/-! ## The heap model

Claims about object identity — circular-reference detection (`checkCircular`
sees the same object twice) and `merge` not mutating its target — are not
expressible on pure trees, so the object graph is modelled once more with
an explicit heap: arrays and plain objects live at numbered addresses, and
a value is either a primitive/special atom or a reference.  (Sharing and
cycles through `Set`/`Map`/`Date`/… are not modelled: such values stay
atomic pure values; `checkCircular` never descends into them anyway, as
they have no own enumerable properties.) -/

/-- A heap value: a `JSValue` atom (never `arr`/`obj` in well-formed
heaps), or a reference to a heap node. -/
inductive HVal where
  | atom (v : JSValue)
  | ref (a : Nat)

/-- A heap node: a JS array (elements, plus non-index properties assigned
onto it) or a plain object (ordered fields). -/
inductive HNode where
  | harr (elems : List HVal) (props : List (String × HVal))
  | hobj (fields : List (String × HVal))

/-- Heaps as association lists; updates prepend, lookup takes the first
(most recent) binding. -/
abbrev Heap := List (Nat × HNode)

/-- Address lookup (first binding wins). -/
def lookupH : Heap → Nat → Option HNode
  | [], _ => none
  | (b, n) :: rest, a => if b = a then some n else lookupH rest a

/-- The children `checkCircular` recurses into (riv.js 36–40): an array's
elements (`obj.forEach`), or an object's field values (`Object.values`);
non-index properties of an array are not visited. -/
def childrenH : HNode → List HVal
  | .harr elems _ => elems
  | .hobj fields => fields.map Prod.snd

/-- The outcome of `checkCircular`: the `Circular reference` throw, or
fuel exhaustion (not reachable for the fuel `serializeH` supplies, which
exceeds the address count and hence the possible `seen` growth). -/
inductive CErr where
  | circ
  | nofuel

/-- `checkCircular(obj, seen)` (riv.js 31–43) on the heap.  `seen` is the
WeakSet: membership by address.  The source adds the node, recurses into
every child with the same (mutated) set, and deletes the node on return;
since each child call restores the set, passing `a :: seen` to each child
is the same thing.  Atoms return immediately (`!obj || typeof obj !==
'object'`, or an object kind with no values to recurse into); a dangling
reference cannot arise from JavaScript and returns like an atom.  The
fold aborts at the first throw, as the exception would. -/
def checkCircularH (h : Heap) : Nat → HVal → List Nat → Except CErr Unit
  | 0, _, _ => .error .nofuel
  | fuel + 1, v, seen =>
    match v with
    | .atom _ => .ok ()
    | .ref a =>
      if a ∈ seen then .error .circ
      else
        match lookupH h a with
        | none => .ok ()
        | some node =>
          (childrenH node).foldl
            (fun r w => match r with
              | .error e => .error e
              | .ok () => checkCircularH h fuel w (a :: seen))
            (.ok ())

/-- The short-circuiting fold step of `checkCircularH`, abstracted over
the per-child call (the lemmas about the fold are stated with it). -/
def ccStep (f : HVal → Except CErr Unit) (r : Except CErr Unit) (w : HVal) :
    Except CErr Unit :=
  match r with
  | .error e => .error e
  | .ok () => f w

/-- `serialize` (riv.js 50–121) on the heap, for values with object
identity: atoms delegate to the pure serializer (same dispatch, same
depth check); references pass the depth check, then `checkCircular`
(riv.js 84, with a fresh `seen` — the transient marker set is per call),
then render as the sequence or mapping of riv.js 87–118.  The fuel
decreases once per nesting level; a dangling reference cannot arise from
JavaScript and is a distinguished error. -/
def serializeH (cfg : Config) (h : Heap) : Nat → HVal → Option String → Nat →
    Except String String
  | 0, _, _, _ => .error "serializeH out of fuel"
  | fuel + 1, v, name, level =>
    match v with
    | .atom w => serialize cfg w name level
    | .ref a =>
      if level > cfg.maxDepth then .error "Max depth exceeded"
      else
        match checkCircularH h (h.length + 2) (.ref a) [] with
        | .error .circ => .error "Circular reference"
        | .error .nofuel => .error "checkCircular out of fuel"
        | .ok () =>
          match lookupH h a with
          | none => .error "dangling reference"
          | some (.harr elems _) =>
            if elems.isEmpty then .ok "<>"
            else
              match elems.foldl
                (fun (acc : Except String (List String)) w => match acc with
                  | .error e => .error e
                  | .ok items =>
                    match serializeH cfg h fuel w none (level + 1) with
                    | .error e => .error e
                    | .ok s => .ok (items ++ [s]))
                (.ok []) with
              | .error e => .error e
              | .ok items =>
                let inline := String.intercalate " " items
                if inline.length < 60 && !(hasNl inline) then
                  .ok ("<" ++ inline ++ ">")
                else
                  .ok ("<\n" ++
                    String.intercalate "\n"
                      (items.map (fun item => indentStr cfg (level + 1) ++ item))
                    ++ "\n" ++ indentStr cfg level ++ ">")
          | some (.hobj fields) =>
            let entries := fields.filter (fun kv =>
              match kv.2 with
              | .atom w => !w.isFn
              | .ref _ => true)
            if entries.isEmpty then .ok (nameHeader name)
            else
              match entries.foldl
                (fun (acc : Except String (List String)) kv => match acc with
                  | .error e => .error e
                  | .ok props =>
                    match serializeH cfg h fuel kv.2 none (level + 1) with
                    | .error e => .error e
                    | .ok val =>
                      let prop :=
                        if hasNl val then
                          let lines := String.intercalate "\n"
                            ((splitLines val.data).map
                              (fun line => indentStr cfg (level + 2) ++ String.mk line))
                          indentStr cfg (level + 1) ++ ":" ++ kv.1 ++ " =>\n" ++ lines
                        else
                          indentStr cfg (level + 1) ++ ":" ++ kv.1 ++ " => " ++ val
                      .ok (props ++ [prop]))
                (.ok []) with
              | .error e => .error e
              | .ok props => .ok (nameHeader name ++ "\n" ++ String.intercalate "\n" props)

/-- A heap together with its allocation counter: every bound address is
below `next`, and fresh nodes are allocated at `next`. -/
structure Store where
  heap : Heap
  next : Nat

/-- The well-formedness invariant of a store. -/
def Store.wf (st : Store) : Prop := ∀ p ∈ st.heap, p.1 < st.next

mutual

/-- Allocate a pure value into the store as a fresh tree: arrays and
objects become fresh nodes (children first, so a subtree occupies the
contiguous address range between the store's `next` before and after);
everything else stays an atom.  This is how the object graph
`deserialize` returns enters the heap world: the parser constructs only
fresh objects. -/
def allocH (st : Store) : JSValue → Store × HVal
  | .arr elems =>
    let r := allocListH st elems
    ({ heap := (r.1.next, .harr r.2 []) :: r.1.heap, next := r.1.next + 1 },
      .ref r.1.next)
  | .obj fields =>
    let r := allocFieldsH st fields
    ({ heap := (r.1.next, .hobj r.2) :: r.1.heap, next := r.1.next + 1 },
      .ref r.1.next)
  | v => (st, .atom v)

/-- Allocate a list of values left to right. -/
def allocListH (st : Store) : List JSValue → Store × List HVal
  | [] => (st, [])
  | v :: vs =>
    let r := allocH st v
    let r2 := allocListH r.1 vs
    (r2.1, r.2 :: r2.2)

/-- Allocate an object's field values left to right. -/
def allocFieldsH (st : Store) : List (String × JSValue) → Store × List (String × HVal)
  | [] => (st, [])
  | (k, v) :: rest =>
    let r := allocH st v
    let r2 := allocFieldsH r.1 rest
    (r2.1, (k, r.2) :: r2.2)

end

/-- Association-list update for heap node fields (same semantics as
`objSet`: update in place or append). -/
def fieldSet (fields : List (String × HVal)) (k : String) (w : HVal) :
    List (String × HVal) :=
  match fields with
  | [] => [(k, w)]
  | (k', v') :: rest => if k' = k then (k', w) :: rest else (k', v') :: fieldSet rest k w

/-- Is `k` a canonical array index (digits, no superfluous leading zero)? -/
def isIdx (k : String) : Bool :=
  match k.data with
  | [] => false
  | c :: rest => (c :: rest).all isDigit && (c ≠ '0' ∨ rest = [])

/-- Property read `v[k]` on the heap (`deepMerge`, riv.js 391–395):
absent properties and reads on atoms give `undefined`; arrays read
elements under canonical in-range index keys and properties otherwise
(an out-of-range index key reads among the extra properties, where the
model stores sparse writes). -/
def getFieldH (st : Store) (v : HVal) (k : String) : HVal :=
  match v with
  | .atom _ => .atom .undef
  | .ref a =>
    match lookupH st.heap a with
    | some (.hobj fields) => (fields.lookup k).getD (.atom .undef)
    | some (.harr elems props) =>
      if isIdx k then
        match elems.get? (decVal k.data) with
        | some w => w
        | none => (props.lookup k).getD (.atom .undef)
      else (props.lookup k).getD (.atom .undef)
    | none => (.atom .undef)

/-- Property write `v[k] = w` on the heap, in strict mode: a write to an
atom throws a `TypeError` (riv.js runs under 'use strict'; message
abbreviated); a write to an array stores under the element slot for a
canonical in-range index key and among the extra properties otherwise
(an out-of-range index write, which makes a JS array sparse, is modelled
as a property under the index's key string — reads agree, see
`getFieldH`). -/
def setFieldH (st : Store) (v : HVal) (k : String) (w : HVal) : Except String Store :=
  match v with
  | .atom _ => .error "Cannot create property on a primitive value"
  | .ref a =>
    match lookupH st.heap a with
    | none => .error "dangling reference"
    | some (.hobj fields) =>
      .ok { st with heap := (a, .hobj (fieldSet fields k w)) :: st.heap }
    | some (.harr elems props) =>
      if isIdx k then
        let i := decVal k.data
        if i < elems.length then
          .ok { st with heap := (a, .harr (elems.set i w) props) :: st.heap }
        else
          .ok { st with heap := (a, .harr elems (fieldSet props k w)) :: st.heap }
      else
        .ok { st with heap := (a, .harr elems (fieldSet props k w)) :: st.heap }

/-- `for (const key in v)` (riv.js 390): an object's field names in
order; an array's index keys then its extra property names; nothing for
atoms (no own enumerable properties on the modelled kinds). -/
def forInKeysH (st : Store) (v : HVal) : List String :=
  match v with
  | .atom _ => []
  | .ref a =>
    match lookupH st.heap a with
    | some (.hobj fields) => fields.map Prod.fst
    | some (.harr elems props) =>
      (List.range elems.length).map (fun i => String.mk (natDec i)) ++ props.map Prod.fst
    | none => []

/-- Truthiness of a heap value (objects are truthy). -/
def hvTruthy : HVal → Bool
  | .atom v => v.truthy
  | .ref _ => true

/-- `typeof v === 'object'` of a heap value. -/
def hvIsObjectType : HVal → Bool
  | .atom v => v.isObjectType
  | .ref _ => true

/-- `Array.isArray` of a heap value. -/
def hvIsArr (st : Store) : HVal → Bool
  | .atom v => v.isArr
  | .ref a =>
    match lookupH st.heap a with
    | some (.harr _ _) => true
    | _ => false

/-- One iteration of the `for (const key in src)` loop of `deepMerge`
(riv.js 390–398), abstracted over the recursive call: a truthy
non-array-object source field is merged recursively into `tgt[key]`,
after the `tgt[key] = tgt[key] || {}` assignment (which allocates a fresh
empty object in the falsy case); any other source field is assigned
wholesale (sharing the source's value, as the assignment does).  The fold
aborts at the first throw. -/
def deepMergeBody (recur : Store → HVal → HVal → Except String Store)
    (tgt src : HVal) (acc : Except String Store) (key : String) :
    Except String Store :=
  match acc with
  | .error e => .error e
  | .ok st' =>
    let srcv := getFieldH st' src key
    if hvTruthy srcv && hvIsObjectType srcv && !hvIsArr st' srcv then
      let tgtv := getFieldH st' tgt key
      if hvTruthy tgtv then
        match setFieldH st' tgt key tgtv with
        | .error e => .error e
        | .ok st2 => recur st2 tgtv srcv
      else
        let a := st'.next
        let st2 : Store := { heap := (a, .hobj []) :: st'.heap, next := a + 1 }
        match setFieldH st2 tgt key (.ref a) with
        | .error e => .error e
        | .ok st3 => recur st3 (.ref a) srcv
    else
      setFieldH st' tgt key srcv

/-- `deepMerge(tgt, src)` (riv.js 389–399) on the heap, mutating the
store: enumerate the source's keys (snapshot at entry) and run the loop
body on each.  Fuel exhaustion stands in for the stack overflow the
unguarded recursion produces on a cyclic source. -/
def deepMergeH : Nat → Store → HVal → HVal → Except String Store
  | 0, _, _, _ => .error "Maximum call stack size exceeded"
  | fuel + 1, st, tgt, src =>
    (forInKeysH st src).foldl (deepMergeBody (deepMergeH fuel) tgt src) (.ok st)

/-- `merge(target, source)` (riv.js 386–402) on the heap: clone the
target (serialize it from the heap, deserialize the text to a fresh value
graph, allocate that graph at fresh addresses), then deep-merge the
source into the clone and return it.  `fuel` bounds the recursion depth
of both walks (the JavaScript recursion is unbounded and crashes on
cyclic sources). -/
def mergeH (cfg : Config) (fuel : Nat) (st : Store) (target source : HVal) :
    Except String (Store × HVal) :=
  match serializeH cfg st.heap fuel target none 0 with
  | .error e => .error e
  | .ok text =>
    match deserialize cfg text with
    | .error e => .error e
    | .ok v =>
      let r := allocH st v
      match deepMergeH fuel r.1 r.2 source with
      | .error e => .error e
      | .ok st2 => .ok (st2, r.2)

/-! ## Specification-side definitions

These do not embed source code; they are the vocabulary in which the
claims are stated: the Nil identification `norm` (`null` and `undefined`
collapse to one kind on a round trip), the flat fragment of values whose
rendering is a single line, the nesting-depth measure, reachability paths
in a heap, and the range certificates describing freshly allocated
clones. -/

mutual

/-- The Nil identification of the data model: `undefined` becomes `null`
(both serialize to `#nil`, which deserializes to `null`); everything else
is mapped structurally. -/
def norm : JSValue → JSValue
  | .undef => .null
  | .set elems => .set (normList elems)
  | .map entries => .map (normPairs entries)
  | .arr elems => .arr (normList elems)
  | .obj fields => .obj (normFields fields)
  | v => v

def normList : List JSValue → List JSValue
  | [] => []
  | v :: vs => norm v :: normList vs

def normPairs : List (JSValue × JSValue) → List (JSValue × JSValue)
  | [] => []
  | (k, v) :: rest => (norm k, norm v) :: normPairs rest

def normFields : List (String × JSValue) → List (String × JSValue)
  | [] => []
  | (k, v) :: rest => (k, norm v) :: normFields rest

end

/-- No element of the list is SameValueZero-equal to an earlier one (so
`Set`/`Map` insertion never deduplicates). -/
def svzDistinct : List JSValue → Bool
  | [] => true
  | v :: vs => !vs.any (fun w => svzEq w v) && svzDistinct vs

/-- A regex source in canonical literal form: every `/` escaped, no
dangling final backslash. -/
def canonicalSrc : List Char → Bool
  | [] => true
  | ['\\'] => false
  | '\\' :: _ :: rest => canonicalSrc rest
  | '/' :: _ => false
  | _ :: rest => canonicalSrc rest

/-- All characters distinct (flag strings of real `RegExp` values). -/
def distinctChars : List Char → Bool
  | [] => true
  | c :: rest => !rest.contains c && distinctChars rest

/-- All keys distinct (true of the field list of any JavaScript object). -/
def distinctKeys : List String → Bool
  | [] => true
  | k :: rest => !rest.contains k && distinctKeys rest

/-- A mapping key that survives the round trip: serialized bare after `:`
(riv.js 114) and read back by the key scan of riv.js 310, which stops at
whitespace and `=`. -/
def wfKey (k : String) : Bool := k.data.all (fun c => !isSpaceRe c && c != '=')

mutual

/-- The flat fragment: `flatRender v = some out` states that `v` is a
supported value whose serialization (at any level, under the default
configuration) is the single-line text `out`, with every payload inside
the sub-language the deserializer maps back faithfully: integers of
magnitude at most 2^53, newline-free strings and error messages, dates
with years 0–9999, regexes with a canonical newline-free source and
distinct `gimuy` flags, non-empty byte buffers, sequences whose joined
rendering stays under the 60-character inline threshold, and sets and
maps of such values without SameValueZero collisions.  Mappings and
functions are not flat (`none`). -/
def flatRender : JSValue → Option String
  | .null => some "#nil"
  | .undef => some "#nil"
  | .bool b => some (if b then "#yes" else "#no")
  | .num .nan => some "#nan"
  | .num .inf => some "#inf"
  | .num .neginf => some "#-inf"
  | .num (.int n) => if n.natAbs ≤ 2 ^ 53 then some (String.mk (intDec n)) else none
  | .bigint n => some ("#big:" ++ String.mk (intDec n))
  | .str s =>
    if s.data.contains '\n' then none else some ("\"" ++ escape s ++ "\"")
  | .date ms =>
    if -62167219200000 ≤ ms ∧ ms ≤ 253402300799999 then
      some ("#date:\"" ++ isoOfMs ms ++ "\"")
    else none
  | .regex src flags =>
    if !src.isEmpty && canonicalSrc src.data && !src.data.contains '\n' &&
        flags.data.all isRegexFlag && distinctChars flags.data then
      some ("#regex:\"" ++ escape ("/" ++ src ++ "/" ++ flags) ++ "\"")
    else none
  | .error msg =>
    if msg.data.contains '\n' then none else some ("#error:\"" ++ escape msg ++ "\"")
  | .buffer bytes =>
    if !bytes.isEmpty && bytes.all (fun b => b < 256) then
      some ("#buffer:\"" ++
        String.intercalate "," (bytes.map (fun b => String.mk (natDec b))) ++ "\"")
    else none
  | .set elems =>
    match flatRenderList elems with
    | some items =>
      if svzDistinct (normList elems) then
        some ("#set:<" ++ String.intercalate " " items ++ ">")
      else none
    | none => none
  | .map entries =>
    match flatRenderPairs entries with
    | some items =>
      if svzDistinct (normList (entries.map Prod.fst)) then
        some ("#map:<" ++ String.intercalate " " items ++ ">")
      else none
    | none => none
  | .arr elems =>
    if elems.isEmpty then some "<>"
    else
      match flatRenderList elems with
      | some items =>
        let inline := String.intercalate " " items
        if inline.length < 60 then some ("<" ++ inline ++ ">") else none
      | none => none
  | .obj _ => none
  | .fn => none

def flatRenderList : List JSValue → Option (List String)
  | [] => some []
  | v :: vs =>
    match flatRender v, flatRenderList vs with
    | some s, some rest => some (s :: rest)
    | _, _ => none

def flatRenderPairs : List (JSValue × JSValue) → Option (List String)
  | [] => some []
  | (k, v) :: rest =>
    match flatRender k, flatRender v, flatRenderPairs rest with
    | some sk, some sv, some tail => some (("<" ++ sk ++ " " ++ sv ++ ">") :: tail)
    | _, _, _ => none

end

mutual

/-- The nesting-depth measure matched by `serialize`'s `level` counter:
`serialize cfg v name lvl` succeeds exactly when
`lvl + jsDepth v ≤ cfg.maxDepth` (empty collections and mappings with no
serializable entries recurse into nothing). -/
def jsDepth : JSValue → Nat
  | .set elems =>
    match elems with
    | [] => 0
    | es => jsDepthList es + 1
  | .map entries =>
    match entries with
    | [] => 0
    | es => jsDepthPairs es + 1
  | .arr elems =>
    match elems with
    | [] => 0
    | es => jsDepthList es + 1
  | .obj fields =>
    if (fields.filter (fun kv => !kv.2.isFn)).isEmpty then 0
    else jsDepthFields fields + 1
  | _ => 0

def jsDepthList : List JSValue → Nat
  | [] => 0
  | v :: vs => max (jsDepth v) (jsDepthList vs)

def jsDepthPairs : List (JSValue × JSValue) → Nat
  | [] => 0
  | (k, v) :: rest => max (max (jsDepth k) (jsDepth v)) (jsDepthPairs rest)

def jsDepthFields : List (String × JSValue) → Nat
  | [] => 0
  | (_, v) :: rest => if v.isFn then jsDepthFields rest else max (jsDepth v) (jsDepthFields rest)

end

/-- The whole flat-or-top-level-mapping fragment of the amended
round-trip claim: a flat value, or a mapping whose keys are well-formed
and distinct and whose field values are flat; in both cases within the
default depth limit and (for the mapping, whose rendering grows with its
field count) within the default input-length limit on re-reading. -/
def TopFrag : JSValue → Bool
  | .obj fields =>
    (fields.all (fun kv => wfKey kv.1 && (flatRender kv.2).isSome)) &&
      distinctKeys (fields.map Prod.fst) &&
      jsDepth (.obj fields) ≤ 100 &&
      (match serialize defaultConfig (.obj fields) none 0 with
        | .ok t => t.length ≤ 1000000
        | .error _ => false)
  | v => (flatRender v).isSome && jsDepth v ≤ 100

/-- A nest of singleton sequences: `nestArr n` is nested exactly `n`
levels deep (`jsDepth (nestArr n) = n`), the canonical witness family for
the depth-limit claim. -/
def nestArr : Nat → JSValue
  | 0 => .arr []
  | n + 1 => .arr [nestArr n]

/-- One ownership edge of the heap: some field or element of the node at
`a` is a reference to `b`. -/
def stepH (h : Heap) (a b : Nat) : Prop :=
  ∃ node, lookupH h a = some node ∧ (HVal.ref b) ∈ childrenH node

/-- A chain of ownership edges from `a` through the listed intermediate
addresses to `b`. -/
def chainH (h : Heap) : Nat → List Nat → Nat → Prop
  | a, [], b => stepH h a b
  | a, c :: p, b => stepH h a c ∧ chainH h c p b

/-- Is the heap value an atom or a reference below `N`?  (With `N` the
allocation counter: a value of the pre-existing object graph.) -/
def refBelow (N : Nat) : HVal → Bool
  | .atom _ => true
  | .ref b => decide (b < N)

/-- Well-formedness of one pre-existing node, as JavaScript guarantees
it: every stored value references a bound (pre-existing) object, an
object's field names are distinct, and an array's extra property names
are distinct non-index keys. -/
def nodeOkSrc (N : Nat) : HNode → Bool
  | .hobj fields =>
    fields.all (fun kv => refBelow N kv.2) &&
      decide (fields.map Prod.fst).Nodup
  | .harr elems props =>
    elems.all (refBelow N) && props.all (fun kv => refBelow N kv.2) &&
      decide (props.map Prod.fst).Nodup &&
      props.all (fun kv => !(isIdx kv.1))

/-- Well-formedness of the pre-existing region of a store: every binding
at an address below `N` satisfies `nodeOkSrc`. -/
def OldOk (N : Nat) (h : Heap) : Bool :=
  h.all (fun p => if p.1 < N then nodeOkSrc N p.2 else true)

mutual

/-- Certificate that `v` is a fresh tree occupying exactly the address
range `[lo, hi)` of `h`: atoms occupy an empty range; a reference is the
range's top address, bound to a node whose children partition the rest.
`allocH` produces exactly this shape, and it is what the frame proof of
`merge` walks. -/
inductive CertV : Heap → Nat → Nat → HVal → Prop
  | atom (h : Heap) (lo : Nat) (v : JSValue) : CertV h lo lo (.atom v)
  | arr (h : Heap) (lo a : Nat) (elems : List HVal) :
      lookupH h a = some (.harr elems []) → CertList h lo a elems →
      CertV h lo (a + 1) (.ref a)
  | obj (h : Heap) (lo a : Nat) (fields : List (String × HVal)) :
      lookupH h a = some (.hobj fields) → CertFields h lo a fields →
      CertV h lo (a + 1) (.ref a)

/-- Consecutive certificates for a list of children. -/
inductive CertList : Heap → Nat → Nat → List HVal → Prop
  | nil (h : Heap) (lo : Nat) : CertList h lo lo []
  | cons (h : Heap) (lo mid hi : Nat) (v : HVal) (vs : List HVal) :
      CertV h lo mid v → CertList h mid hi vs → CertList h lo hi (v :: vs)

/-- Consecutive certificates for an object's field values. -/
inductive CertFields : Heap → Nat → Nat → List (String × HVal) → Prop
  | nil (h : Heap) (lo : Nat) : CertFields h lo lo []
  | cons (h : Heap) (lo mid hi : Nat) (k : String) (v : HVal)
      (rest : List (String × HVal)) :
      CertV h lo mid v → CertFields h mid hi rest →
      CertFields h lo hi ((k, v) :: rest)

end

/-- A concrete non-circular, depth-1 value exercising every supported
kind the round-trip claim enumerates: integers, a string with escapable
characters (quote, backslash, tab), booleans, `null`, `NaN`, `±Infinity`,
a `BigInt`, a `Date`, a `RegExp` with flags, an `Error`, an
`ArrayBuffer`, a `Set`, a `Map`, and nested sequences, inside a mapping. -/
def c1Flat : JSValue := .obj [
  ("a", .num (.int (-42))),
  ("b", .str "he\"ll\\o\tworld"),
  ("c", .bool true),
  ("d", .null),
  ("e", .num .nan),
  ("f", .num .inf),
  ("g", .num .neginf),
  ("h", .bigint 123456789012345678901234567890),
  ("i", .date 1700000000000),
  ("j", .regex "a[b-z]+" "gi"),
  ("k", .error "boom"),
  ("l", .buffer [0, 255, 7]),
  ("m", .set [.num (.int 1), .str "x"]),
  ("n", .map [(.str "k", .num (.int 2))]),
  ("o", .arr [.num (.int 1), .arr [.num (.int 2)], .str "y"])]

/-- The multiline text `serialize` produces for a 31-element sequence of
`1`s: the space-joined inline form is 61 characters, at the 60-character
threshold, so the one-element-per-line layout of riv.js 92–96 is used. -/
def c1MLText : String :=
  "<\n  1\n  1\n  1\n  1\n  1\n  1\n  1\n  1\n  1\n  1\n  1\n  1\n  1\n  1\n  1\n  1\n  1\n  1\n  1\n  1\n  1\n  1\n  1\n  1\n  1\n  1\n  1\n  1\n  1\n  1\n  1\n>"

/-! ## Basic lemmas -/

theorem forceNat_eq (n : Nat) (k : Nat → α) : forceNat n k = k n := by
  cases n <;> rfl

mutual

theorem forceJS_eq : ∀ (v : JSValue) (k : JSValue → α), forceJS v k = k v
  | .null, _ => rfl
  | .undef, _ => rfl
  | .bool _, _ => rfl
  | .num _, _ => rfl
  | .bigint _, _ => rfl
  | .str _, _ => rfl
  | .date _, _ => rfl
  | .regex _ _, _ => rfl
  | .error _, _ => rfl
  | .set elems, k => by rw [forceJS, forceJSList_eq]
  | .map entries, k => by rw [forceJS, forceJSPairs_eq]
  | .buffer _, _ => rfl
  | .arr elems, k => by rw [forceJS, forceJSList_eq]
  | .obj fields, k => by rw [forceJS, forceJSFields_eq]
  | .fn, _ => rfl

theorem forceJSList_eq : ∀ (l : List JSValue) (k : List JSValue → α), forceJSList l k = k l
  | [], _ => rfl
  | v :: vs, k => by rw [forceJSList, forceJS_eq, forceJSList_eq]

theorem forceJSPairs_eq : ∀ (l : List (JSValue × JSValue)) (k : List (JSValue × JSValue) → α),
    forceJSPairs l k = k l
  | [], _ => rfl
  | (a, b) :: vs, k => by rw [forceJSPairs, forceJS_eq, forceJS_eq, forceJSPairs_eq]

theorem forceJSFields_eq : ∀ (l : List (String × JSValue)) (k : List (String × JSValue) → α),
    forceJSFields l k = k l
  | [], _ => rfl
  | (s, b) :: vs, k => by rw [forceJSFields, forceJS_eq, forceJSFields_eq]

end

/-- The element loop's `while` guard (riv.js 248): when the input ends
with the element list still open, the loop exits and returns the
elements collected so far rather than failing, so `deserialize "<1"`
yields the one-element sequence. -/
theorem deserialize_unclosed_array_at_eof :
    deserialize defaultConfig "<1" = .ok (.arr [.num (.int 1)]) := rfl

/-! ## Claim 2 — string escaping (code bug)

The claim says `serialize` escapes exactly `"`, `\`, newline, carriage
return, tab, backspace and form feed.  The regex literal
`/["\\n\r\t\b\f]/` of riv.js 24 contains a literal backslash followed by
the plain letter `n` — not a newline — so a newline in a string is left
unescaped (while the letter `n` is matched but maps to itself).
`ESCAPE_MAP` itself (riv.js 14) does carry the newline entry, and
`unescape` (riv.js 28) does fold `\n` escapes back, so the intent is
plainly to escape newlines; the regex is the slip. -/

/-- C2: at the failing input `"a\nb"` the serializer emits the newline
raw between the quotes; the six other claimed characters are escaped as
claimed; and the unreachable newline entry of `ESCAPE_MAP` documents the
intent. -/
theorem serialize_leaves_newline_unescaped :
    serialize defaultConfig (.str "a\nb") none 0 = .ok "\"a\nb\"" ∧
    escape "\n" = "\n" ∧
    ESCAPE_MAP.lookup '\n' = some ['\\', 'n'] ∧
    serialize defaultConfig (.str "\"\\\r\t\x08\x0C") none 0 =
      .ok "\"\\\"\\\\\\r\\t\\b\\f\"" ∧
    escape "n" = "n" := by
  refine ⟨rfl, rfl, rfl, rfl, rfl⟩

/-! ## Claim 9 — `equal` never throws -/

/-- C9: `equal` is a total Boolean function (the embedding of the
`try`/`catch` of riv.js 430–436): when serializing either argument fails,
it returns `false` rather than propagating the error, and when both
serialize it answers exactly the character identity of the two texts. -/
theorem equal_total_and_textual (cfg : Config) (a b : JSValue) :
    (((serialize cfg a none 0).isOk = false ∨ (serialize cfg b none 0).isOk = false) →
      equal cfg a b = false) ∧
    (∀ sa sb, serialize cfg a none 0 = .ok sa → serialize cfg b none 0 = .ok sb →
      (equal cfg a b = true ↔ sa = sb)) := by
  constructor
  · intro h
    unfold equal
    cases ha : serialize cfg a none 0 with
    | error e => rfl
    | ok sa =>
      cases hb : serialize cfg b none 0 with
      | error e => rfl
      | ok sb =>
        exfalso
        rcases h with h | h <;> simp [ha, hb, Except.isOk, Except.toBool] at h
  · intro sa sb ha hb
    unfold equal
    rw [ha, hb]
    simp

/-- Witness for C9: with `maxDepth 0` serializing a one-deep nest fails,
and `equal` answers `false`; on two equal booleans it answers `true`. -/
theorem equal_total_and_textual_witness :
    equal { maxDepth := 0 } (nestArr 1) .null = false ∧
    equal defaultConfig (.bool true) (.bool true) = true := by
  constructor
  · exact (equal_total_and_textual { maxDepth := 0 } (nestArr 1) .null).1 (Or.inl rfl)
  · exact ((equal_total_and_textual defaultConfig (.bool true) (.bool true)).2
      "#yes" "#yes" rfl rfl).mpr rfl

/-! ## Claim 4 — the depth limit -/

@[simp] theorem isOk_ok (a : α) : (Except.ok a : Except ε α).isOk = true := rfl

@[simp] theorem isOk_error (e : ε) : (Except.error e : Except ε α).isOk = false := rfl

/-- Serializing the canonical `n`-deep nest succeeds exactly when the
deepest level stays within the configured bound. -/
theorem nestArr_isOk (cfg : Config) :
    ∀ (n lvl : Nat), (serialize cfg (nestArr n) none lvl).isOk =
      decide (lvl + n ≤ cfg.maxDepth) := by
  intro n
  induction n with
  | zero =>
    intro lvl
    unfold nestArr serialize
    split
    · simp; omega
    · simp; omega
  | succ n ih =>
    intro lvl
    show (serialize cfg (.arr [nestArr n]) none lvl).isOk = _
    unfold serialize
    split
    · simp; omega
    · have hsl : serializeList cfg [nestArr n] (lvl + 1) =
          match serialize cfg (nestArr n) none (lvl + 1) with
          | .error e => .error e
          | .ok s => .ok [s] := by
        unfold serializeList
        cases serialize cfg (nestArr n) none (lvl + 1) with
        | error e => rfl
        | ok s => unfold serializeList; rfl
      simp only [List.isEmpty_cons, hsl]
      cases hres : serialize cfg (nestArr n) none (lvl + 1) with
      | error e =>
        have hd := ih (lvl + 1)
        rw [hres] at hd
        simp only [isOk_error] at hd
        have hd2 : ¬ (lvl + 1 + n ≤ cfg.maxDepth) := by simpa using hd.symm
        simp only [Bool.false_eq_true, if_false, isOk_error]
        symm
        simp only [decide_eq_false_iff_not]
        omega
      | ok s =>
        have hd := ih (lvl + 1)
        rw [hres] at hd
        simp only [isOk_ok] at hd
        have hle : lvl + 1 + n ≤ cfg.maxDepth := by simpa using hd.symm
        simp only [Bool.false_eq_true, if_false]
        split <;> simp <;> omega

/-- Serializing a nest past the bound throws exactly the depth error. -/
theorem nestArr_error (cfg : Config) :
    ∀ (n lvl : Nat), cfg.maxDepth < lvl + n →
      serialize cfg (nestArr n) none lvl = .error "Max depth exceeded" := by
  intro n
  induction n with
  | zero =>
    intro lvl h
    unfold nestArr serialize
    split
    · rfl
    · omega
  | succ n ih =>
    intro lvl h
    show serialize cfg (.arr [nestArr n]) none lvl = _
    unfold serialize
    split
    · rfl
    · rename_i hlvl
      have hrec := ih (lvl + 1) (by omega)
      have hsl : serializeList cfg [nestArr n] (lvl + 1) =
          .error "Max depth exceeded" := by
        unfold serializeList
        rw [hrec]
      simp only [List.isEmpty_cons, hsl, Bool.false_eq_true, if_false]

/-- C4: an input nested exactly at the configured `maxDepth` levels
serializes successfully, and one nested one level beyond fails the whole
operation with the `Max depth exceeded` error — the `Except.error` result
carries no partial output. -/
theorem depth_limit_boundary (cfg : Config) :
    (serialize cfg (nestArr cfg.maxDepth) none 0).isOk = true ∧
    serialize cfg (nestArr (cfg.maxDepth + 1)) none 0 = .error "Max depth exceeded" := by
  constructor
  · rw [nestArr_isOk]
    simp
  · exact nestArr_error cfg (cfg.maxDepth + 1) 0 (by omega)

/-! ## Claim 6 — sequence layout -/

/-- C6: for a non-empty sequence whose elements serialize (at `level+1`)
to `items`, the single-line form `<e1 e2 …>` is emitted exactly when the
space-joined items are shorter than 60 characters and contain no newline;
otherwise one element per line at `level+1` with the closing bracket on
its own line at `level`; the empty sequence is always the fixed token
`<>` (riv.js 87–97). -/
theorem array_inline_threshold (cfg : Config) (lvl : Nat) (elems : List JSValue)
    (items : List String) (hne : elems ≠ []) (hlvl : lvl ≤ cfg.maxDepth)
    (hitems : serializeList cfg elems (lvl + 1) = .ok items) :
    ((String.intercalate " " items).length < 60 ∧
        hasNl (String.intercalate " " items) = false →
      serialize cfg (.arr elems) none lvl =
        .ok ("<" ++ String.intercalate " " items ++ ">")) ∧
    (¬ ((String.intercalate " " items).length < 60 ∧
        hasNl (String.intercalate " " items) = false) →
      serialize cfg (.arr elems) none lvl =
        .ok ("<\n" ++
          String.intercalate "\n" (items.map (fun item => indentStr cfg (lvl + 1) ++ item))
          ++ "\n" ++ indentStr cfg lvl ++ ">")) ∧
    serialize cfg (.arr []) none lvl = .ok "<>" := by
  have harr : serialize cfg (.arr elems) none lvl =
      if (String.intercalate " " items).length < 60 &&
          !hasNl (String.intercalate " " items) then
        .ok ("<" ++ String.intercalate " " items ++ ">")
      else
        .ok ("<\n" ++
          String.intercalate "\n" (items.map (fun item => indentStr cfg (lvl + 1) ++ item))
          ++ "\n" ++ indentStr cfg lvl ++ ">") := by
    have hempty : elems.isEmpty = false := by
      cases elems with
      | nil => exact absurd rfl hne
      | cons a l => rfl
    simp only [serialize, if_neg (by omega : ¬ lvl > cfg.maxDepth), hempty,
      Bool.false_eq_true, if_false, hitems]
  refine ⟨?_, ?_, ?_⟩
  · intro hc
    rw [harr, if_pos (by simp [hc.1, hc.2])]
  · intro hc
    rw [harr, if_neg]
    simp only [Bool.and_eq_true, Bool.not_eq_true', decide_eq_true_eq]
    intro h2
    exact hc ⟨h2.1, h2.2⟩
  · simp only [serialize, if_neg (by omega : ¬ lvl > cfg.maxDepth)]
    rfl

/-- Witness for C6 at a two-element sequence of small numbers: the inline
form is chosen. -/
theorem array_inline_threshold_witness :
    serialize defaultConfig (.arr [.num (.int 1), .num (.int 2)]) none 0 = .ok "<1 2>" := by
  have h := (array_inline_threshold defaultConfig 0 [.num (.int 1), .num (.int 2)]
    ["1", "2"] (by simp) (by simp [defaultConfig]) rfl).1 ⟨by decide, rfl⟩
  simpa using h

/-! ## Claim 5 — what ends a mapping block -/

/-- C5: one iteration of the mapping-block entry loop (riv.js 280–338).
With `ind` the leading-space count of the current line: before the line
is examined, end of input ends the block where the cursor stands; a blank
line is skipped without ending the block (the loop continues past its
newline with the fields accumulated so far unchanged); a non-blank line
indented strictly less than the block's base ends the block with the
cursor rewound to the line start; end of input after the spaces ends the
block; and a line at column zero starting with one of `@`, `<`, `>` ends
the block with the cursor rewound to the line start. -/
theorem mapping_block_termination (cfg : Config) (cs : List Char)
    (fuel base pos : Nat) (acc : List (String × JSValue)) :
    (cs.length ≤ pos → parseObjLoop cfg cs (fuel + 1) base pos acc = (.ok acc, pos)) ∧
    (∀ ind, ind = countWhile (fun c => c == ' ') (cs.drop pos) → pos < cs.length →
      ((cs.get? (pos + ind) = some '\n' →
          parseObjLoop cfg cs (fuel + 1) base pos acc =
            parseObjLoop cfg cs fuel base (pos + ind + 1) acc) ∧
       (cs.get? (pos + ind) ≠ some '\n' → pos + ind < cs.length → ind < base →
          parseObjLoop cfg cs (fuel + 1) base pos acc = (.ok acc, pos)) ∧
       (cs.length ≤ pos + ind →
          parseObjLoop cfg cs (fuel + 1) base pos acc = (.ok acc, pos + ind)) ∧
       (ind = 0 →
          (cs.get? pos = some '@' ∨ cs.get? pos = some '<' ∨ cs.get? pos = some '>') →
          parseObjLoop cfg cs (fuel + 1) base pos acc = (.ok acc, pos)))) := by
  constructor
  · intro hend
    unfold parseObjLoop
    rw [if_pos hend]
  · intro ind hind hpos
    refine ⟨?_, ?_, ?_, ?_⟩
    · intro hnl
      conv_lhs => unfold parseObjLoop
      rw [if_neg (by omega), ← hind, forceNat_eq, forceNat_eq, if_pos hnl]
    · intro hnnl hlt hdent
      unfold parseObjLoop
      rw [if_neg (by omega), ← hind, forceNat_eq, forceNat_eq, if_neg hnnl, if_pos]
      simp only [Bool.and_eq_true, decide_eq_true_eq, bne_iff_ne]
      exact ⟨⟨hdent, hlt⟩, hnnl⟩
    · intro hend
      have hnnl : ¬ cs.get? (pos + ind) = some '\n' := by
        rw [List.get?_eq_none.mpr hend]
        simp
      unfold parseObjLoop
      rw [if_neg (by omega), ← hind, forceNat_eq, forceNat_eq, if_neg hnnl, if_neg,
        if_pos hend]
      simp only [Bool.and_eq_true, decide_eq_true_eq, bne_iff_ne, not_and]
      intro h1
      omega
    · intro hz hmark
      have hp : pos + ind = pos := by omega
      have hnnl : ¬ cs.get? (pos + ind) = some '\n' := by
        rw [hp]
        rcases hmark with h | h | h <;> rw [h] <;> simp
      have hlt : pos + ind < cs.length := by
        rw [hp]
        rcases hmark with h | h | h <;>
          exact (List.get?_eq_some.mp h).choose
      unfold parseObjLoop
      rw [if_neg (by omega), ← hind, forceNat_eq, forceNat_eq, if_neg hnnl]
      by_cases hdent : ind < base
      · rw [if_pos]
        simp only [Bool.and_eq_true, decide_eq_true_eq, bne_iff_ne]
        exact ⟨⟨hdent, hlt⟩, hnnl⟩
      · rw [if_neg, if_neg (by omega), if_pos]
        · simp only [Bool.and_eq_true, Bool.or_eq_true, decide_eq_true_eq]
          refine ⟨by simp [hz], ?_⟩
          rw [hp]
          rcases hmark with h | h | h <;> rw [List.get?_eq_getElem?] at h <;> simp [h]
        · simp only [Bool.and_eq_true, decide_eq_true_eq, bne_iff_ne, not_and]
          intro h1
          omega

/-- Witness for C5, one concrete instance per terminating/continuing
case: end of input; a blank line inside the block (skipped, loop
continues); a dedented line (cursor rewound to its start); a column-zero
`@` marker line (cursor rewound). -/
theorem mapping_block_termination_witness :
    parseObjLoop defaultConfig "ab".data 7 0 5 [] = (.ok [], 5) ∧
    parseObjLoop defaultConfig "  \nx".data 8 2 0 [] =
      parseObjLoop defaultConfig "  \nx".data 7 2 3 [] ∧
    parseObjLoop defaultConfig " x".data 8 2 0 [] = (.ok [], 0) ∧
    parseObjLoop defaultConfig "@n".data 8 0 0 [] = (.ok [], 0) := by
  refine ⟨(mapping_block_termination defaultConfig "ab".data 6 0 5 []).1 (by decide),
    ?_, ?_, ?_⟩
  · exact (((mapping_block_termination defaultConfig "  \nx".data 7 2 0 []).2
      2 rfl (by decide)).1) (by decide)
  · exact (((mapping_block_termination defaultConfig " x".data 7 2 0 []).2
      1 rfl (by decide)).2.1) (by decide) (by decide) (by decide)
  · exact (((mapping_block_termination defaultConfig "@n".data 7 0 0 []).2
      0 rfl (by decide)).2.2.2) rfl (Or.inl rfl)

/-! ## Claim 7 — the error-context window (corrected)

The claim says every failing `deserialize` call carries the original
message plus the input window.  The two validity checks of riv.js
125–126 sit outside the `try` block: the empty input (and the over-long
input) throw unwrapped, so the claim fails there; every error thrown
during parsing is wrapped, once, at the outermost call. -/

/-- Counterexample to C7 as stated: the two validity pre-checks of
riv.js 125–126 throw outside the `try` block.  The empty string fails
with the bare `Invalid input` message, and an input longer than the
configured `maxLength` (here 3) fails with the bare `Input too long`
message; neither carries a ` | Context: "…"` window (neither even
contains the `|` of the wrap format). -/
theorem deserialize_empty_input_unwrapped :
    deserialize defaultConfig "" = .error "Invalid input" ∧
    ("Invalid input".data.contains '|') = false ∧
    deserialize { defaultConfig with maxLength := 3 } "xxxx" =
      .error "Input too long" ∧
    ("Input too long".data.contains '|') = false := ⟨rfl, rfl, rfl, rfl⟩

/-- C7 as amended: on every input that passes the initial validity and
length checks and whose parse then fails, the error `deserialize` raises
is exactly the thrown message with the context window appended once —
`str.slice(max(0, pos-10), pos+10)` around the cursor at throw time,
i.e. up to 10 characters before and after it. -/
theorem deserialize_error_context (cfg : Config) (s m : String) (p : Nat)
    (hne : s ≠ "") (hlen : s.length ≤ cfg.maxLength)
    (hparse : parseTop cfg s.data (parseFuel s) = (.error (.msg m), p)) :
    deserialize cfg s = .error (m ++ " | Context: \"" ++ ctxWindow s.data p ++ "\"") ∧
    (ctxWindow s.data p).data = (s.data.take (p + 10)).drop (p - 10) := by
  constructor
  · unfold deserialize
    have h1 : s.isEmpty = false := by
      cases hs : s.isEmpty
      · rfl
      · exact absurd ((String.isEmpty_iff s).mp hs) hne
    rw [h1]
    simp only [Bool.false_eq_true, if_false]
    rw [if_neg (by omega), hparse]
  · show ((s.data.drop (p - 10)).take (p + 10 - (p - 10))) = _
    rw [List.drop_take]

/-- Witness for C7: a concrete invalid input, wrapped once with the first
ten characters after the failure cursor (cursor 0, so nothing before). -/
theorem deserialize_error_context_witness :
    deserialize defaultConfig "invalid input here" =
      .error "Invalid token 'i' at 0 | Context: \"invalid in\"" := by
  have h := (deserialize_error_context defaultConfig "invalid input here"
    "Invalid token 'i' at 0" 0 (by simp) (by decide) rfl).1
  simpa using h

/-! ## Claim 3 — circular references and shared siblings

`checkCircular` (riv.js 31–43) adds the node to the `seen` WeakSet,
recurses into the children, and removes it on return; `chain_not_ok`
shows any ownership cycle is caught, and `checkCircular_fuel` shows the
fuel `serializeH` supplies (more than the number of distinct addresses)
never runs out, so the only failure is the genuine circular-reference
throw.  The shared-sibling half of the claim breaks on the decode side:
the serializer emits two copies of the shared sub-object, but the
object parser's skip-to-end-of-line after a nested value (riv.js
330–332) lands on the line the nested parse rewound to and erases the
following sibling entry. -/

theorem ccFold_frozen (f : HVal → Except CErr Unit) (e : CErr) :
    ∀ l : List HVal, l.foldl (ccStep f) (.error e) = .error e := by
  intro l
  induction l with
  | nil => rfl
  | cons w l ih => exact ih

theorem ccFold_ok_mem (f : HVal → Except CErr Unit) :
    ∀ l : List HVal, l.foldl (ccStep f) (.ok ()) = .ok () →
      ∀ w ∈ l, f w = .ok () := by
  intro l
  induction l with
  | nil => intro _ w hw; exact absurd hw (List.not_mem_nil w)
  | cons v l ih =>
    intro hok w hw
    have hred : ccStep f (Except.ok ()) v = f v := rfl
    rw [List.foldl_cons, hred] at hok
    cases hfv : f v with
    | error e =>
      exfalso
      rw [hfv, ccFold_frozen f e l] at hok
      exact Except.noConfusion hok
    | ok u =>
      cases u
      rw [hfv] at hok
      rcases List.mem_cons.mp hw with h1 | h2
      · rw [h1]; exact hfv
      · exact ih hok w h2

theorem ccFold_err_mem (f : HVal → Except CErr Unit) :
    ∀ (l : List HVal) (e : CErr), l.foldl (ccStep f) (.ok ()) = .error e →
      ∃ w ∈ l, f w = .error e := by
  intro l
  induction l with
  | nil => intro e he; exact absurd he (by simp [List.foldl_nil])
  | cons v l ih =>
    intro e he
    have hred : ccStep f (Except.ok ()) v = f v := rfl
    rw [List.foldl_cons, hred] at he
    cases hfv : f v with
    | error e' =>
      rw [hfv, ccFold_frozen f e' l] at he
      exact ⟨v, List.mem_cons_self v l, by rw [hfv]; exact he⟩
    | ok u =>
      cases u
      rw [hfv] at he
      obtain ⟨w, hw, hfw⟩ := ih e he
      exact ⟨w, List.mem_cons_of_mem v hw, hfw⟩

theorem lookupH_some_mem (h : Heap) (a : Nat) (node : HNode)
    (hl : lookupH h a = some node) : a ∈ h.map Prod.fst := by
  induction h with
  | nil => exact absurd hl (by simp [lookupH])
  | cons p rest ih =>
    obtain ⟨b, n⟩ := p
    by_cases hb : b = a
    · simp [hb]
    · simp only [lookupH, if_neg hb] at hl
      simpa using Or.inr (ih hl)

theorem mem_seen_not_ok (h : Heap) (b : Nat) (fuel : Nat) (seen : List Nat)
    (hb : b ∈ seen) : checkCircularH h fuel (.ref b) seen ≠ .ok () := by
  match fuel with
  | 0 => simp [checkCircularH]
  | fuel + 1 => simp [checkCircularH, hb]

theorem chain_not_ok (h : Heap) (b : Nat) :
    ∀ (p : List Nat) (a : Nat) (fuel : Nat) (seen : List Nat),
      chainH h a p b → b ∈ a :: seen →
      checkCircularH h fuel (.ref a) seen ≠ .ok () := by
  intro p
  induction p with
  | nil =>
    intro a fuel seen hch hb
    match fuel with
    | 0 => simp [checkCircularH]
    | fuel + 1 =>
      obtain ⟨node, hlook, hmem⟩ := hch
      by_cases ha : a ∈ seen
      · simp [checkCircularH, ha]
      · intro hok
        simp only [checkCircularH, if_neg ha, hlook] at hok
        have hok' : (childrenH node).foldl
            (ccStep (fun w => checkCircularH h fuel w (a :: seen))) (.ok ()) =
            .ok () := hok
        have h2 := ccFold_ok_mem (fun w => checkCircularH h fuel w (a :: seen))
          (childrenH node) hok' (.ref b) hmem
        exact mem_seen_not_ok h b fuel (a :: seen) hb h2
  | cons c p ih =>
    intro a fuel seen hch hb
    match fuel with
    | 0 => simp [checkCircularH]
    | fuel + 1 =>
      obtain ⟨⟨node, hlook, hmem⟩, hch'⟩ := hch
      by_cases ha : a ∈ seen
      · simp [checkCircularH, ha]
      · intro hok
        simp only [checkCircularH, if_neg ha, hlook] at hok
        have hok' : (childrenH node).foldl
            (ccStep (fun w => checkCircularH h fuel w (a :: seen))) (.ok ()) =
            .ok () := hok
        have h2 := ccFold_ok_mem (fun w => checkCircularH h fuel w (a :: seen))
          (childrenH node) hok' (.ref c) hmem
        have hb' : b ∈ c :: a :: seen := by
          rcases List.mem_cons.mp hb with h1 | h1
          · exact List.mem_cons_of_mem c (h1 ▸ List.mem_cons_self a seen)
          · exact List.mem_cons_of_mem c (List.mem_cons_of_mem a h1)
        exact ih c fuel (a :: seen) hch' hb' h2

theorem seen_le_dedup (dom : List Nat) (seen : List Nat) (hnd : seen.Nodup)
    (hsub : ∀ x ∈ seen, x ∈ dom) : seen.length ≤ dom.dedup.length := by
  have hsub' : seen ⊆ dom.dedup := fun x hx => List.mem_dedup.mpr (hsub x hx)
  exact List.Subperm.length_le (List.subperm_of_subset hnd hsub')

theorem checkCircular_fuel (h : Heap) :
    ∀ (fuel : Nat) (v : HVal) (seen : List Nat), seen.Nodup →
      (∀ x ∈ seen, x ∈ h.map Prod.fst) →
      (h.map Prod.fst).dedup.length + 1 ≤ fuel + seen.length →
      checkCircularH h fuel v seen ≠ .error .nofuel := by
  intro fuel
  induction fuel with
  | zero =>
    intro v seen hnd hsub harith
    exact absurd (seen_le_dedup (h.map Prod.fst) seen hnd hsub) (by omega)
  | succ fuel ih =>
    intro v seen hnd hsub harith
    match v with
    | .atom w => simp [checkCircularH]
    | .ref a =>
      by_cases ha : a ∈ seen
      · simp [checkCircularH, ha]
      · cases hlook : lookupH h a with
        | none => simp [checkCircularH, ha, hlook]
        | some node =>
          intro hnf
          simp only [checkCircularH, if_neg ha, hlook] at hnf
          have hnf' : (childrenH node).foldl
              (ccStep (fun w => checkCircularH h fuel w (a :: seen))) (.ok ()) =
              .error .nofuel := hnf
          obtain ⟨w, hw, hfw⟩ := ccFold_err_mem
            (fun w => checkCircularH h fuel w (a :: seen)) (childrenH node) _ hnf'
          have hmem_a : a ∈ h.map Prod.fst := lookupH_some_mem h a node hlook
          refine ih w (a :: seen) (List.nodup_cons.mpr ⟨ha, hnd⟩) ?_ ?_ hfw
          · intro x hx
            rcases List.mem_cons.mp hx with h1 | h2
            · exact h1 ▸ hmem_a
            · exact hsub x h2
          · simp only [List.length_cons]
            omega

/-- On any heap, a reference whose node lies on an ownership cycle
serializes to the circular-reference error (for any fuel, name and
in-limit level). -/
theorem serializeH_circular (h : Heap) (a : Nat) (p : List Nat)
    (cfg : Config) (fuel level : Nat) (name : Option String)
    (hch : chainH h a p a) (hlvl : level ≤ cfg.maxDepth) :
    serializeH cfg h (fuel + 1) (.ref a) name level = .error "Circular reference" := by
  have hne_ok : checkCircularH h (h.length + 2) (.ref a) [] ≠ .ok () :=
    chain_not_ok h a p a (h.length + 2) [] hch (List.mem_cons_self a [])
  have hne_nf : checkCircularH h (h.length + 2) (.ref a) [] ≠ .error .nofuel := by
    refine checkCircular_fuel h (h.length + 2) (.ref a) [] List.nodup_nil
      (by intro x hx; exact absurd hx (List.not_mem_nil x)) ?_
    have hd : (h.map Prod.fst).dedup.length ≤ (h.map Prod.fst).length :=
      List.Sublist.length_le (List.dedup_sublist _)
    rw [List.length_map] at hd
    omega
  have hcirc : checkCircularH h (h.length + 2) (.ref a) [] = .error .circ := by
    cases hc : checkCircularH h (h.length + 2) (.ref a) [] with
    | ok u => cases u; exact absurd hc hne_ok
    | error e => cases e with
      | circ => rfl
      | nofuel => exact absurd hc hne_nf
  simp only [serializeH]
  rw [if_neg (by omega), hcirc]

/-- C3: a mapping on a cycle of the ownership graph (a field chain from
the node back to itself) fails `serializeH` with the circular-reference
error, at every fuel, name and in-limit level — the first two parts of
the claim.  The last part fails on the code: the concrete heap in which
the sibling fields `x` and `y` share one non-ancestor sub-object
`{v: 1}` serializes successfully to a text carrying two copies, but
deserializing that text yields `{x: {v: 1}, v: 1}` — the parser's
skip-to-end-of-line after a nested multiline value consumes the
rewound `:y` sibling line, so the result is not two independent copies
(final conjunct: it differs from the claimed value). -/
theorem circular_error_and_shared_sibling :
    (∀ (h : Heap) (a : Nat) (p : List Nat) (fields : List (String × HVal))
       (cfg : Config) (fuel level : Nat) (name : Option String),
       lookupH h a = some (.hobj fields) → chainH h a p a →
       level ≤ cfg.maxDepth →
       serializeH cfg h (fuel + 1) (.ref a) name level = .error "Circular reference") ∧
    serializeH defaultConfig
      [(0, .hobj [("x", .ref 1), ("y", .ref 1)]), (1, .hobj [("v", .atom (.num (.int 1)))])]
      4 (.ref 0) none 0 =
      .ok "@\n  :x =>\n    @\n        :v => 1\n  :y =>\n    @\n        :v => 1" ∧
    deserialize defaultConfig
      "@\n  :x =>\n    @\n        :v => 1\n  :y =>\n    @\n        :v => 1" =
      .ok (.obj [("x", .obj [("v", .num (.int 1))]), ("v", .num (.int 1))]) ∧
    JSValue.obj [("x", .obj [("v", .num (.int 1))]), ("v", .num (.int 1))] ≠
      .obj [("x", .obj [("v", .num (.int 1))]), ("y", .obj [("v", .num (.int 1))])] := by
  refine ⟨?_, by rfl, by rfl, by simp⟩
  intro h a p fields cfg fuel level name _ hch hlvl
  exact serializeH_circular h a p cfg fuel level name hch hlvl

theorem circular_error_and_shared_sibling_witness :
    serializeH defaultConfig [(0, .hobj [("self", .ref 0)])] 1 (.ref 0) none 0 =
      .error "Circular reference" :=
  circular_error_and_shared_sibling.1 [(0, .hobj [("self", .ref 0)])] 0 [] [("self", .ref 0)]
    defaultConfig 0 0 none rfl
    ⟨.hobj [("self", .ref 0)], rfl, by simp [childrenH]⟩ (by decide)

/-! ## Claim 8 — the merge scenario (corrected)

`deepMerge` (riv.js 390–399) decides with
`src[key] && typeof src[key] === 'object' && !Array.isArray(src[key])`
whether to merge recursively; that test is true not only of plain
mappings but of every object kind, so `Set`, `Map`, `Date` and friends
from the source are "merged" — which copies none of their data — rather
than replacing the target's value.  The concrete scenario of the claim
holds. -/

/-- Counterexample to C8 as stated: a `Set` value from the source is not
a plain mapping, so the claim says it replaces the target's value
wholesale; but the `typeof`-object test of riv.js 392 classifies it as
recursively mergeable, the recursion finds no own enumerable properties
to copy, and the field ends up an empty plain object. -/
theorem merge_set_counterexample :
    merge defaultConfig (.obj []) (.obj [("x", .set [.num (.int 1)])]) =
      .ok (.obj [("x", .obj [])]) ∧
    JSValue.obj [("x", .obj [])] ≠ .obj [("x", .set [.num (.int 1)])] :=
  ⟨by rfl, by simp⟩

/-- C8 as amended: the concrete scenario of the claim holds —
`merge({a:1,b:{c:2}}, {b:{d:3},e:4})` is `{a:1,b:{c:2,d:3},e:4}` — and
the replace-wholesale rule holds for exactly the source fields that are
falsy, non-objects (`typeof` not `'object'`: numbers, strings, booleans,
bigints, functions) or arrays; every other object kind (`Set`, `Map`,
`Date`, `RegExp`, `Error`, `ArrayBuffer`) is treated as recursively
mergeable and, having no own enumerable properties, contributes nothing:
over an absent target field it leaves an empty plain object. -/
theorem merge_scenario :
    merge defaultConfig
        (.obj [("a", .num (.int 1)), ("b", .obj [("c", .num (.int 2))])])
        (.obj [("b", .obj [("d", .num (.int 3))]), ("e", .num (.int 4))]) =
      .ok (.obj [("a", .num (.int 1)),
        ("b", .obj [("c", .num (.int 2)), ("d", .num (.int 3))]),
        ("e", .num (.int 4))]) ∧
    (∀ (tgt : JSValue) (k : String) (v : JSValue),
      (v.truthy && v.isObjectType && !v.isArr) = false →
      deepMergeEntries tgt [(k, v)] = setField tgt k v) ∧
    (∀ (k : String) (v : JSValue), v.truthy = true → v.isObjectType = true →
      v.isArr = false → (∀ fs, v ≠ .obj fs) →
      deepMergeEntries (.obj []) [(k, v)] = .ok (.obj [(k, .obj [])])) := by
  refine ⟨?_, ?_, ?_⟩
  · have hclone : clone defaultConfig
        (.obj [("a", .num (.int 1)), ("b", .obj [("c", .num (.int 2))])]) =
        .ok (.obj [("a", .num (.int 1)), ("b", .obj [("c", .num (.int 2))])]) := by rfl
    have hdm : deepMerge
        (.obj [("a", .num (.int 1)), ("b", .obj [("c", .num (.int 2))])])
        (.obj [("b", .obj [("d", .num (.int 3))]), ("e", .num (.int 4))]) =
        .ok (.obj [("a", .num (.int 1)),
          ("b", .obj [("c", .num (.int 2)), ("d", .num (.int 3))]),
          ("e", .num (.int 4))]) := by rfl
    simp only [merge, hclone, forceJS_eq, hdm]
  · intro tgt k v hcond
    simp only [deepMergeEntries, hcond, Bool.false_eq_true, if_false]
    cases hsf : setField tgt k v with
    | error e => rfl
    | ok tgt1 => simp [forceJS_eq, deepMergeEntries]
  · intro k v htr hobj harr hne
    have hcond : (v.truthy && v.isObjectType && !v.isArr) = true := by
      rw [htr, hobj, harr]; rfl
    have hdm : deepMerge (.obj []) v = .ok (.obj []) := by
      cases v with
      | obj fs => exact absurd rfl (hne fs)
      | arr es => simp [JSValue.isArr] at harr
      | null => simp [JSValue.truthy] at htr
      | undef => simp [JSValue.truthy] at htr
      | bool b => simp [JSValue.isObjectType] at hobj
      | num n => simp [JSValue.isObjectType] at hobj
      | bigint n => simp [JSValue.isObjectType] at hobj
      | str s => simp [JSValue.isObjectType] at hobj
      | fn => simp [JSValue.isObjectType] at hobj
      | date ms => rfl
      | regex s f => rfl
      | error m => rfl
      | set es => rfl
      | map es => rfl
      | buffer bs => rfl
    have hget : getField (.obj []) k = .undef := by simp [getField]
    have htv : (if JSValue.undef.truthy = true then JSValue.undef else JSValue.obj []) =
        .obj [] := rfl
    have hsf1 : setField (.obj []) k (.obj []) = .ok (.obj [(k, .obj [])]) := rfl
    have hsf2 : setField (.obj [(k, .obj [])]) k (.obj []) =
        .ok (.obj [(k, .obj [])]) := by simp [setField, objSet]
    simp only [deepMergeEntries, hcond, if_true, hget, htv, hsf1, hdm, hsf2, forceJS_eq]

/-- Witness for C8: the replace-wholesale conjunct at a number field, and
the contributes-nothing conjunct at a `Date` field. -/
theorem merge_scenario_witness :
    deepMergeEntries (.obj []) [("p", .num (.int 7))] =
      setField (.obj []) "p" (.num (.int 7)) ∧
    deepMergeEntries (.obj []) [("q", .date 0)] = .ok (.obj [("q", .obj [])]) :=
  ⟨merge_scenario.2.1 (.obj []) "p" (.num (.int 7)) rfl,
   merge_scenario.2.2 "q" (.date 0) rfl rfl rfl
     (fun _ h => JSValue.noConfusion h)⟩

/-! ## Claim 10 — `merge` does not mutate its target

`merge` performs every write on the serialize/deserialize clone of the
target (riv.js 387, 393–396).  The proof walks the heap model: decimal
key lemmas (array index keys are canonical decimals, so distinct keys
denote distinct indices), range certificates for the freshly allocated
clone (`allocH_spec`), frame lemmas for heap reads and writes, and the
master induction `deepMergeH_frame` showing the merge walk writes only
inside the clone certificate's range or at fresh addresses — never to a
pre-existing address. -/

theorem natDecAux_eq (n : Nat) : ∀ f g, n < f → n < g → natDecAux f n = natDecAux g n := by
  induction n using Nat.strong_induction_on with
  | _ n ih =>
    intro f g hf hg
    match f, g with
    | f + 1, g + 1 =>
      by_cases h10 : n < 10
      · simp [natDecAux, h10]
      · have hdiv : n / 10 < n := Nat.div_lt_self (by omega) (by omega)
        simp only [natDecAux, if_neg h10]
        rw [ih (n / 10) hdiv f g (by omega) (by omega)]

theorem natDec_succ (n : Nat) (h10 : 10 ≤ n) :
    natDec n = natDec (n / 10) ++ [Char.ofNat (48 + n % 10)] := by
  show natDecAux (n + 1) n = _
  have hdiv : n / 10 < n := Nat.div_lt_self (by omega) (by omega)
  simp only [natDecAux, if_neg (by omega : ¬ n < 10)]
  rw [natDecAux_eq (n / 10) n (n / 10 + 1) (by omega) (by omega)]
  rfl

theorem decVal_append_last (xs : List Char) (c : Char) :
    decVal (xs ++ [c]) = 10 * decVal xs + (c.toNat - 48) := by
  simp [decVal, List.foldl_append, Nat.mul_comm]

theorem decVal_natDec (n : Nat) : decVal (natDec n) = n := by
  induction n using Nat.strong_induction_on with
  | _ n ih =>
    by_cases h10 : n < 10
    · have : natDec n = [Char.ofNat (48 + n)] := by
        show natDecAux (n + 1) n = _
        match n with
        | 0 => rfl
        | m + 1 => simp [natDecAux, h10]
      rw [this]
      have hval : (Char.ofNat (48 + n)).toNat = 48 + n := by
        interval_cases n <;> decide
      simp [decVal, hval]
    · have hdiv : n / 10 < n := Nat.div_lt_self (by omega) (by omega)
      rw [natDec_succ n (by omega), decVal_append_last, ih (n / 10) hdiv]
      have hmod : (Char.ofNat (48 + n % 10)).toNat = 48 + n % 10 := by
        have : n % 10 < 10 := Nat.mod_lt _ (by omega)
        interval_cases h : (n % 10) <;> decide
      rw [hmod]
      omega

theorem digit_bounds (c : Char) (h : isDigit c = true) : 48 ≤ c.toNat ∧ c.toNat ≤ 57 := by
  simp only [isDigit, Bool.and_eq_true, decide_eq_true_eq] at h
  obtain ⟨h1, h2⟩ := h
  rw [Char.le_def] at h1 h2
  rw [UInt32.le_def] at h1 h2
  rw [BitVec.le_def] at h1 h2
  exact ⟨h1, h2⟩

theorem natDec_lt10 (n : Nat) (h : n < 10) : natDec n = [Char.ofNat (48 + n)] := by
  show natDecAux (n + 1) n = _
  match n with
  | 0 => rfl
  | m + 1 => simp [natDecAux, h]

theorem natDec_ne_nil (n : Nat) : natDec n ≠ [] := by
  by_cases h : n < 10
  · rw [natDec_lt10 n h]; simp
  · rw [natDec_succ n (by omega)]; simp

theorem natDec_head (n : Nat) : 1 ≤ n → ∀ c rest, natDec n = c :: rest → c ≠ '0' := by
  induction n using Nat.strong_induction_on with
  | _ n ih =>
    intro hn c rest hdec
    by_cases h : n < 10
    · rw [natDec_lt10 n h] at hdec
      have hc : c = Char.ofNat (48 + n) := (List.cons.injEq _ _ _ _ ▸ hdec).1.symm
      rw [hc]
      interval_cases n <;> decide
    · rw [natDec_succ n (by omega)] at hdec
      have hdiv : n / 10 < n := Nat.div_lt_self (by omega) (by omega)
      have hdiv1 : 1 ≤ n / 10 := by omega
      cases hd : natDec (n / 10) with
      | nil => exact absurd hd (natDec_ne_nil _)
      | cons c0 rest0 =>
        rw [hd] at hdec
        have : c0 = c := (List.cons.injEq _ _ _ _ ▸ hdec).1
        rw [← this]
        exact ih (n / 10) hdiv hdiv1 c0 rest0 hd

theorem natDec_digits (n : Nat) : ∀ c ∈ natDec n, isDigit c = true := by
  induction n using Nat.strong_induction_on with
  | _ n ih =>
    intro c hc
    by_cases h : n < 10
    · rw [natDec_lt10 n h] at hc
      simp at hc
      rw [hc]
      interval_cases n <;> decide
    · rw [natDec_succ n (by omega)] at hc
      have hdiv : n / 10 < n := Nat.div_lt_self (by omega) (by omega)
      rcases List.mem_append.mp hc with h1 | h2
      · exact ih (n / 10) hdiv c h1
      · have : c = Char.ofNat (48 + n % 10) := by simpa using h2
        rw [this]
        have hm : n % 10 < 10 := Nat.mod_lt _ (by omega)
        interval_cases h : (n % 10) <;> decide

theorem isIdx_natDec (n : Nat) : isIdx (String.mk (natDec n)) = true := by
  cases hd : natDec n with
  | nil => exact absurd hd (natDec_ne_nil _)
  | cons c rest =>
    show isIdx ⟨c :: rest⟩ = true
    simp only [isIdx]
    rw [Bool.and_eq_true]
    refine ⟨?_, ?_⟩
    · rw [List.all_eq_true]
      intro x hx
      exact natDec_digits n x (hd ▸ hx)
    · rw [decide_eq_true_eq]
      by_cases hn : n = 0
      · right
        subst hn
        have : natDec 0 = ['0'] := by rfl
        rw [this] at hd
        exact ((List.cons.injEq _ _ _ _ ▸ hd).2).symm
      · exact Or.inl (natDec_head n (by omega) c rest hd)

theorem decVal_foldl_ge (rest : List Char) :
    ∀ acc : Nat, 1 ≤ acc →
      1 ≤ rest.foldl (fun acc c => acc * 10 + (c.toNat - 48)) acc := by
  induction rest with
  | nil => intro acc h; exact h
  | cons c rest ih =>
    intro acc h
    rw [List.foldl_cons]
    exact ih _ (by omega)

theorem decVal_pos (c : Char) (rest : List Char) (hd : isDigit c = true)
    (hc : c ≠ '0') : 1 ≤ decVal (c :: rest) := by
  have hb := digit_bounds c hd
  have hne : c.toNat ≠ 48 := by
    intro h48
    apply hc
    have : Char.ofNat c.toNat = Char.ofNat 48 := by rw [h48]
    rwa [Char.ofNat_toNat] at this
  show 1 ≤ List.foldl _ (0 * 10 + (c.toNat - 48)) rest
  exact decVal_foldl_ge rest _ (by omega)

theorem natDec_decVal : ∀ cs : List Char, cs ≠ [] →
    (∀ c ∈ cs, isDigit c = true) →
    (∀ c rest, cs = c :: rest → (c ≠ '0' ∨ rest = [])) →
    natDec (decVal cs) = cs := by
  intro cs
  induction cs using List.reverseRecOn with
  | nil => intro h; exact absurd rfl h
  | append_singleton xs d ih =>
    intro _ hdig hhead
    have hdd : isDigit d = true := hdig d (by simp)
    have hdb := digit_bounds d hdd
    match xs with
    | [] =>
      have hv : decVal [d] = d.toNat - 48 := by
        show 0 * 10 + (d.toNat - 48) = _
        omega
      simp only [List.nil_append]
      rw [hv, natDec_lt10 _ (by omega)]
      have : 48 + (d.toNat - 48) = d.toNat := by omega
      rw [this, Char.ofNat_toNat]
    | c0 :: xs' =>
      have hc0 : c0 ≠ '0' := by
        rcases hhead c0 (xs' ++ [d]) (by simp) with h | h
        · exact h
        · exact absurd h (by simp)
      have hxsdig : ∀ c ∈ c0 :: xs', isDigit c = true := by
        intro c hcmem
        exact hdig c (List.mem_append.mpr (Or.inl hcmem))
      have hpos : 1 ≤ decVal (c0 :: xs') :=
        decVal_pos c0 xs' (hxsdig c0 (by simp)) hc0
      rw [decVal_append_last]
      have h10 : 10 ≤ 10 * decVal (c0 :: xs') + (d.toNat - 48) := by omega
      rw [natDec_succ _ h10]
      have hdiv : (10 * decVal (c0 :: xs') + (d.toNat - 48)) / 10 = decVal (c0 :: xs') := by
        omega
      have hmod : (10 * decVal (c0 :: xs') + (d.toNat - 48)) % 10 = d.toNat - 48 := by
        omega
      rw [hdiv, hmod]
      have hih : natDec (decVal (c0 :: xs')) = c0 :: xs' := by
        refine ih (by simp) hxsdig ?_
        intro c rest hcr
        exact Or.inl ((List.cons.injEq _ _ _ _ ▸ hcr).1 ▸ hc0)
      rw [hih]
      have : 48 + (d.toNat - 48) = d.toNat := by omega
      rw [this, Char.ofNat_toNat]

theorem isIdx_canonical (k : String) (h : isIdx k = true) :
    natDec (decVal k.data) = k.data := by
  obtain ⟨data⟩ := k
  match data with
  | [] => exact absurd h (by simp [isIdx])
  | c :: rest =>
    simp only [isIdx, Bool.and_eq_true, List.all_eq_true, decide_eq_true_eq] at h
    exact natDec_decVal (c :: rest) (by simp) h.1
      (fun c' rest' hcr => by
        obtain ⟨h1, h2⟩ := List.cons.injEq _ _ _ _ ▸ hcr
        rcases h.2 with h3 | h3
        · exact Or.inl (h1 ▸ h3)
        · exact Or.inr (h2 ▸ h3))

theorem isIdx_inj (k k' : String) (h : isIdx k = true) (h' : isIdx k' = true)
    (heq : decVal k.data = decVal k'.data) : k = k' := by
  have e1 := isIdx_canonical k h
  have e2 := isIdx_canonical k' h'
  have : k.data = k'.data := by rw [← e1, ← e2, heq]
  cases k; cases k'
  exact congrArg String.mk this

theorem natDec_inj (m n : Nat) (h : natDec m = natDec n) : m = n := by
  have := congrArg decVal h
  rwa [decVal_natDec, decVal_natDec] at this

theorem CertV_le {h : Heap} : ∀ {lo hi : Nat} {v : HVal}, CertV h lo hi v → lo ≤ hi := by
  intro lo hi v hc
  refine @CertV.rec h (fun lo hi _ _ => lo ≤ hi) (fun lo hi _ _ => lo ≤ hi)
    (fun lo hi _ _ => lo ≤ hi) ?_ ?_ ?_ ?_ ?_ ?_ ?_ lo hi v hc <;> intros <;> omega

theorem CertList_le {h : Heap} : ∀ {lo hi : Nat} {l : List HVal},
    CertList h lo hi l → lo ≤ hi := by
  intro lo hi l hc
  refine @CertList.rec h (fun lo hi _ _ => lo ≤ hi) (fun lo hi _ _ => lo ≤ hi)
    (fun lo hi _ _ => lo ≤ hi) ?_ ?_ ?_ ?_ ?_ ?_ ?_ lo hi l hc <;> intros <;> omega

theorem CertFields_le {h : Heap} : ∀ {lo hi : Nat} {l : List (String × HVal)},
    CertFields h lo hi l → lo ≤ hi := by
  intro lo hi l hc
  refine @CertFields.rec h (fun lo hi _ _ => lo ≤ hi) (fun lo hi _ _ => lo ≤ hi)
    (fun lo hi _ _ => lo ≤ hi) ?_ ?_ ?_ ?_ ?_ ?_ ?_ lo hi l hc <;> intros <;> omega

theorem CertV_atom_inv {h : Heap} {lo hi : Nat} {w : JSValue}
    (hc : CertV h lo hi (.atom w)) : hi = lo := by
  cases hc
  rfl

theorem CertV_ref_inv {h : Heap} {lo hi : Nat} {b : Nat}
    (hc : CertV h lo hi (.ref b)) :
    hi = b + 1 ∧ lo ≤ b ∧ ∃ node, lookupH h b = some node := by
  cases hc with
  | arr _ _ elems hlk hcl => exact ⟨rfl, CertList_le hcl, ⟨_, hlk⟩⟩
  | obj _ _ fields hlk hcf => exact ⟨rfl, CertFields_le hcf, ⟨_, hlk⟩⟩

theorem CertV_transfer {h : Heap} :
    ∀ {lo hi : Nat} {v : HVal}, CertV h lo hi v →
      ∀ h' : Heap, (∀ x, lo ≤ x → x < hi → lookupH h' x = lookupH h x) →
      CertV h' lo hi v := by
  intro lo hi v hc
  refine @CertV.rec h
    (fun lo hi v _ => ∀ h' : Heap,
      (∀ x, lo ≤ x → x < hi → lookupH h' x = lookupH h x) → CertV h' lo hi v)
    (fun lo hi l _ => ∀ h' : Heap,
      (∀ x, lo ≤ x → x < hi → lookupH h' x = lookupH h x) → CertList h' lo hi l)
    (fun lo hi l _ => ∀ h' : Heap,
      (∀ x, lo ≤ x → x < hi → lookupH h' x = lookupH h x) → CertFields h' lo hi l)
    ?_ ?_ ?_ ?_ ?_ ?_ ?_ lo hi v hc
  · intro lo v h' _
    exact .atom h' lo v
  · intro lo a elems hlk hcl ih h' hag
    refine .arr h' lo a elems ?_ (ih h' (fun x h1 h2 => hag x h1 (by omega)))
    rw [hag a (CertList_le hcl) (Nat.lt_succ_self a)]
    exact hlk
  · intro lo a fields hlk hcf ih h' hag
    refine .obj h' lo a fields ?_ (ih h' (fun x h1 h2 => hag x h1 (by omega)))
    rw [hag a (CertFields_le hcf) (Nat.lt_succ_self a)]
    exact hlk
  · intro lo h' _
    exact .nil h' lo
  · intro lo mid hi v vs hv hl ihv ihl h' hag
    exact .cons h' lo mid hi v vs
      (ihv h' (fun x h1 h2 => hag x h1 (by have := CertList_le hl; omega)))
      (ihl h' (fun x h1 h2 => hag x (by have := CertV_le hv; omega) h2))
  · intro lo h' _
    exact .nil h' lo
  · intro lo mid hi k v rest hv hf ihv ihf h' hag
    exact .cons h' lo mid hi k v rest
      (ihv h' (fun x h1 h2 => hag x h1 (by have := CertFields_le hf; omega)))
      (ihf h' (fun x h1 h2 => hag x (by have := CertV_le hv; omega) h2))

theorem lookupH_prepend_self (h : Heap) (a : Nat) (n : HNode) :
    lookupH ((a, n) :: h) a = some n := by
  simp [lookupH]

theorem lookupH_prepend_ne (h : Heap) (a b : Nat) (n : HNode) (hne : a ≠ b) :
    lookupH ((a, n) :: h) b = lookupH h b := by
  simp [lookupH, hne]

theorem lookupH_mem {h : Heap} {a : Nat} {n : HNode}
    (hl : lookupH h a = some n) : (a, n) ∈ h := by
  induction h with
  | nil => exact absurd hl (by simp [lookupH])
  | cons p rest ih =>
    obtain ⟨b, m⟩ := p
    by_cases hb : b = a
    · subst hb
      rw [lookupH_prepend_self] at hl
      have : m = n := Option.some.injEq _ _ ▸ hl
      rw [← this]
      exact List.mem_cons_self _ _
    · rw [lookupH_prepend_ne rest b a m hb] at hl
      exact List.mem_cons_of_mem _ (ih hl)

theorem CertList_transfer {h : Heap} :
    ∀ {lo hi : Nat} {l : List HVal}, CertList h lo hi l →
      ∀ h' : Heap, (∀ x, lo ≤ x → x < hi → lookupH h' x = lookupH h x) →
      CertList h' lo hi l := by
  intro lo hi l hc
  refine @CertList.rec h
    (fun lo hi v _ => ∀ h' : Heap,
      (∀ x, lo ≤ x → x < hi → lookupH h' x = lookupH h x) → CertV h' lo hi v)
    (fun lo hi l _ => ∀ h' : Heap,
      (∀ x, lo ≤ x → x < hi → lookupH h' x = lookupH h x) → CertList h' lo hi l)
    (fun lo hi l _ => ∀ h' : Heap,
      (∀ x, lo ≤ x → x < hi → lookupH h' x = lookupH h x) → CertFields h' lo hi l)
    ?_ ?_ ?_ ?_ ?_ ?_ ?_ lo hi l hc
  · intro lo v h' _
    exact .atom h' lo v
  · intro lo a elems hlk hcl ih h' hag
    refine .arr h' lo a elems ?_ (ih h' (fun x h1 h2 => hag x h1 (by omega)))
    rw [hag a (CertList_le hcl) (Nat.lt_succ_self a)]
    exact hlk
  · intro lo a fields hlk hcf ih h' hag
    refine .obj h' lo a fields ?_ (ih h' (fun x h1 h2 => hag x h1 (by omega)))
    rw [hag a (CertFields_le hcf) (Nat.lt_succ_self a)]
    exact hlk
  · intro lo h' _
    exact .nil h' lo
  · intro lo mid hi v vs hv hl ihv ihl h' hag
    exact .cons h' lo mid hi v vs
      (ihv h' (fun x h1 h2 => hag x h1 (by have := CertList_le hl; omega)))
      (ihl h' (fun x h1 h2 => hag x (by have := CertV_le hv; omega) h2))
  · intro lo h' _
    exact .nil h' lo
  · intro lo mid hi k v rest hv hf ihv ihf h' hag
    exact .cons h' lo mid hi k v rest
      (ihv h' (fun x h1 h2 => hag x h1 (by have := CertFields_le hf; omega)))
      (ihf h' (fun x h1 h2 => hag x (by have := CertV_le hv; omega) h2))

theorem CertFields_transfer {h : Heap} :
    ∀ {lo hi : Nat} {l : List (String × HVal)}, CertFields h lo hi l →
      ∀ h' : Heap, (∀ x, lo ≤ x → x < hi → lookupH h' x = lookupH h x) →
      CertFields h' lo hi l := by
  intro lo hi l hc
  refine @CertFields.rec h
    (fun lo hi v _ => ∀ h' : Heap,
      (∀ x, lo ≤ x → x < hi → lookupH h' x = lookupH h x) → CertV h' lo hi v)
    (fun lo hi l _ => ∀ h' : Heap,
      (∀ x, lo ≤ x → x < hi → lookupH h' x = lookupH h x) → CertList h' lo hi l)
    (fun lo hi l _ => ∀ h' : Heap,
      (∀ x, lo ≤ x → x < hi → lookupH h' x = lookupH h x) → CertFields h' lo hi l)
    ?_ ?_ ?_ ?_ ?_ ?_ ?_ lo hi l hc
  · intro lo v h' _
    exact .atom h' lo v
  · intro lo a elems hlk hcl ih h' hag
    refine .arr h' lo a elems ?_ (ih h' (fun x h1 h2 => hag x h1 (by omega)))
    rw [hag a (CertList_le hcl) (Nat.lt_succ_self a)]
    exact hlk
  · intro lo a fields hlk hcf ih h' hag
    refine .obj h' lo a fields ?_ (ih h' (fun x h1 h2 => hag x h1 (by omega)))
    rw [hag a (CertFields_le hcf) (Nat.lt_succ_self a)]
    exact hlk
  · intro lo h' _
    exact .nil h' lo
  · intro lo mid hi v vs hv hl ihv ihl h' hag
    exact .cons h' lo mid hi v vs
      (ihv h' (fun x h1 h2 => hag x h1 (by have := CertList_le hl; omega)))
      (ihl h' (fun x h1 h2 => hag x (by have := CertV_le hv; omega) h2))
  · intro lo h' _
    exact .nil h' lo
  · intro lo mid hi k v rest hv hf ihv ihf h' hag
    exact .cons h' lo mid hi k v rest
      (ihv h' (fun x h1 h2 => hag x h1 (by have := CertFields_le hf; omega)))
      (ihf h' (fun x h1 h2 => hag x (by have := CertV_le hv; omega) h2))

theorem allocH_atom_spec (st : Store) (w : JSValue) :
    st.next ≤ st.next ∧
    (∀ x, x < st.next → lookupH st.heap x = lookupH st.heap x) ∧
    (∀ p ∈ st.heap, p ∈ st.heap ∨ st.next ≤ p.1) ∧
    CertV st.heap st.next st.next (.atom w) :=
  ⟨Nat.le_refl _, fun _ _ => rfl, fun _ hp => Or.inl hp, .atom st.heap st.next w⟩

mutual

theorem allocH_spec : ∀ (st : Store) (v : JSValue),
    st.next ≤ (allocH st v).1.next ∧
    (∀ x, x < st.next → lookupH (allocH st v).1.heap x = lookupH st.heap x) ∧
    (∀ p ∈ (allocH st v).1.heap, p ∈ st.heap ∨ st.next ≤ p.1) ∧
    CertV (allocH st v).1.heap st.next (allocH st v).1.next (allocH st v).2
  | st, .arr elems => by
    obtain ⟨hnext, hframe, hmem, hcert⟩ := allocListH_spec st elems
    refine ⟨by show st.next ≤ (allocListH st elems).1.next + 1; omega, ?_, ?_, ?_⟩
    · intro x hx
      show lookupH (((allocListH st elems).1.next, _) :: (allocListH st elems).1.heap) x = _
      rw [lookupH_prepend_ne _ _ _ _ (by omega)]
      exact hframe x hx
    · intro p hp
      rcases List.mem_cons.mp hp with h1 | h1
      · right
        rw [h1]
        exact hnext
      · exact hmem p h1
    · show CertV (((allocListH st elems).1.next, HNode.harr (allocListH st elems).2 []) ::
        (allocListH st elems).1.heap) st.next ((allocListH st elems).1.next + 1)
        (.ref (allocListH st elems).1.next)
      refine CertV.arr _ _ _ _ (lookupH_prepend_self _ _ _) ?_
      exact CertList_transfer hcert _
        (fun x _ h2 => lookupH_prepend_ne _ _ _ _ (by omega))
  | st, .obj fields => by
    obtain ⟨hnext, hframe, hmem, hcert⟩ := allocFieldsH_spec st fields
    refine ⟨by show st.next ≤ (allocFieldsH st fields).1.next + 1; omega, ?_, ?_, ?_⟩
    · intro x hx
      show lookupH (((allocFieldsH st fields).1.next, _) :: (allocFieldsH st fields).1.heap) x = _
      rw [lookupH_prepend_ne _ _ _ _ (by omega)]
      exact hframe x hx
    · intro p hp
      rcases List.mem_cons.mp hp with h1 | h1
      · right
        rw [h1]
        exact hnext
      · exact hmem p h1
    · show CertV (((allocFieldsH st fields).1.next, HNode.hobj (allocFieldsH st fields).2) ::
        (allocFieldsH st fields).1.heap) st.next ((allocFieldsH st fields).1.next + 1)
        (.ref (allocFieldsH st fields).1.next)
      refine CertV.obj _ _ _ _ (lookupH_prepend_self _ _ _) ?_
      exact CertFields_transfer hcert _
        (fun x _ h2 => lookupH_prepend_ne _ _ _ _ (by omega))
  | st, .null => allocH_atom_spec st .null
  | st, .undef => allocH_atom_spec st .undef
  | st, .bool b => allocH_atom_spec st (.bool b)
  | st, .num n => allocH_atom_spec st (.num n)
  | st, .bigint n => allocH_atom_spec st (.bigint n)
  | st, .str s => allocH_atom_spec st (.str s)
  | st, .date ms => allocH_atom_spec st (.date ms)
  | st, .regex s f => allocH_atom_spec st (.regex s f)
  | st, .error m => allocH_atom_spec st (.error m)
  | st, .set es => allocH_atom_spec st (.set es)
  | st, .map es => allocH_atom_spec st (.map es)
  | st, .buffer bs => allocH_atom_spec st (.buffer bs)
  | st, .fn => allocH_atom_spec st .fn

theorem allocListH_spec : ∀ (st : Store) (l : List JSValue),
    st.next ≤ (allocListH st l).1.next ∧
    (∀ x, x < st.next → lookupH (allocListH st l).1.heap x = lookupH st.heap x) ∧
    (∀ p ∈ (allocListH st l).1.heap, p ∈ st.heap ∨ st.next ≤ p.1) ∧
    CertList (allocListH st l).1.heap st.next (allocListH st l).1.next (allocListH st l).2
  | st, [] =>
    ⟨Nat.le_refl _, fun _ _ => rfl, fun p hp => Or.inl hp, .nil st.heap st.next⟩
  | st, v :: vs => by
    obtain ⟨hn1, hf1, hm1, hc1⟩ := allocH_spec st v
    obtain ⟨hn2, hf2, hm2, hc2⟩ := allocListH_spec (allocH st v).1 vs
    refine ⟨by show st.next ≤ (allocListH (allocH st v).1 vs).1.next; omega, ?_, ?_, ?_⟩
    · intro x hx
      show lookupH (allocListH (allocH st v).1 vs).1.heap x = _
      rw [hf2 x (by omega)]
      exact hf1 x hx
    · intro p hp
      rcases hm2 p hp with h1 | h1
      · rcases hm1 p h1 with h2 | h2
        · exact Or.inl h2
        · exact Or.inr h2
      · exact Or.inr (by omega)
    · show CertList (allocListH (allocH st v).1 vs).1.heap st.next
        (allocListH (allocH st v).1 vs).1.next ((allocH st v).2 :: (allocListH (allocH st v).1 vs).2)
      refine CertList.cons _ _ (allocH st v).1.next _ _ _ ?_ hc2
      exact CertV_transfer hc1 _ (fun x _ h2 => hf2 x h2)

theorem allocFieldsH_spec : ∀ (st : Store) (l : List (String × JSValue)),
    st.next ≤ (allocFieldsH st l).1.next ∧
    (∀ x, x < st.next → lookupH (allocFieldsH st l).1.heap x = lookupH st.heap x) ∧
    (∀ p ∈ (allocFieldsH st l).1.heap, p ∈ st.heap ∨ st.next ≤ p.1) ∧
    CertFields (allocFieldsH st l).1.heap st.next (allocFieldsH st l).1.next (allocFieldsH st l).2
  | st, [] =>
    ⟨Nat.le_refl _, fun _ _ => rfl, fun p hp => Or.inl hp, .nil st.heap st.next⟩
  | st, (k, v) :: rest => by
    obtain ⟨hn1, hf1, hm1, hc1⟩ := allocH_spec st v
    obtain ⟨hn2, hf2, hm2, hc2⟩ := allocFieldsH_spec (allocH st v).1 rest
    refine ⟨by show st.next ≤ (allocFieldsH (allocH st v).1 rest).1.next; omega, ?_, ?_, ?_⟩
    · intro x hx
      show lookupH (allocFieldsH (allocH st v).1 rest).1.heap x = _
      rw [hf2 x (by omega)]
      exact hf1 x hx
    · intro p hp
      rcases hm2 p hp with h1 | h1
      · rcases hm1 p h1 with h2 | h2
        · exact Or.inl h2
        · exact Or.inr h2
      · exact Or.inr (by omega)
    · show CertFields (allocFieldsH (allocH st v).1 rest).1.heap st.next
        (allocFieldsH (allocH st v).1 rest).1.next
        ((k, (allocH st v).2) :: (allocFieldsH (allocH st v).1 rest).2)
      refine CertFields.cons _ _ (allocH st v).1.next _ _ _ _ ?_ hc2
      exact CertV_transfer hc1 _ (fun x _ h2 => hf2 x h2)

end

theorem lookup_cons_self (k : String) (v : HVal) (rest : List (String × HVal)) :
    ((k, v) :: rest).lookup k = some v := by
  simp [List.lookup]

theorem lookup_cons_ne (k0 k : String) (v : HVal) (rest : List (String × HVal))
    (hne : k ≠ k0) : ((k0, v) :: rest).lookup k = rest.lookup k := by
  simp [List.lookup, beq_eq_false_iff_ne.mpr hne]

theorem fieldSet_lookup_ne (fields : List (String × HVal)) (k k' : String) (w : HVal)
    (hne : k' ≠ k) : (fieldSet fields k w).lookup k' = fields.lookup k' := by
  induction fields with
  | nil =>
    show ([(k, w)] : List (String × HVal)).lookup k' = ([] : List (String × HVal)).lookup k'
    rw [lookup_cons_ne k k' w [] hne]
  | cons kv rest ih =>
    obtain ⟨k0, v0⟩ := kv
    by_cases h0 : k0 = k
    · subst h0
      simp only [fieldSet, if_pos rfl, if_true]
      rw [lookup_cons_ne k0 k' w rest hne, lookup_cons_ne k0 k' v0 rest hne]
    · simp only [fieldSet, if_neg h0]
      by_cases hk0 : k' = k0
      · subst hk0
        rw [lookup_cons_self, lookup_cons_self]
      · rw [lookup_cons_ne k0 k' v0 _ hk0, lookup_cons_ne k0 k' v0 rest hk0]
        exact ih

theorem lookup_mem_val {fields : List (String × HVal)} {k : String} {v : HVal}
    (h : fields.lookup k = some v) : ∃ k', (k', v) ∈ fields := by
  induction fields with
  | nil => exact absurd h (by simp [List.lookup])
  | cons kv rest ih =>
    obtain ⟨k0, v0⟩ := kv
    by_cases hk : k = k0
    · subst hk
      rw [lookup_cons_self] at h
      exact ⟨k, (Option.some.injEq _ _ ▸ h) ▸ List.mem_cons_self _ _⟩
    · rw [lookup_cons_ne k0 k v0 rest hk] at h
      obtain ⟨k', hk'⟩ := ih h
      exact ⟨k', List.mem_cons_of_mem _ hk'⟩

theorem setFieldH_shape {st : Store} {a : Nat} {k : String} {w : HVal} {nd : HNode}
    (hlk : lookupH st.heap a = some nd) :
    ∃ nd', setFieldH st (.ref a) k w =
      .ok { heap := (a, nd') :: st.heap, next := st.next } := by
  cases nd with
  | hobj fields => exact ⟨.hobj (fieldSet fields k w), by simp [setFieldH, hlk]⟩
  | harr elems props =>
    by_cases hidx : isIdx k
    · by_cases hlen : decVal k.data < elems.length
      · exact ⟨.harr (elems.set (decVal k.data) w) props,
          by simp [setFieldH, hlk, hidx, hlen]⟩
      · exact ⟨.harr elems (fieldSet props k w),
          by simp [setFieldH, hlk, hidx, hlen]⟩
    · exact ⟨.harr elems (fieldSet props k w), by simp [setFieldH, hlk, hidx]⟩

theorem getFieldH_set_ne {st st2 : Store} {a : Nat} {k k' : String} {w : HVal}
    (hset : setFieldH st (.ref a) k w = .ok st2) (hne : k' ≠ k) :
    getFieldH st2 (.ref a) k' = getFieldH st (.ref a) k' := by
  cases hlk : lookupH st.heap a with
  | none => simp [setFieldH, hlk] at hset
  | some nd =>
    cases nd with
    | hobj fields =>
      simp only [setFieldH, hlk] at hset
      cases hset
      show getFieldH ⟨(a, .hobj (fieldSet fields k w)) :: st.heap, st.next⟩ (.ref a) k' = _
      simp only [getFieldH, lookupH_prepend_self, hlk]
      rw [fieldSet_lookup_ne fields k k' w hne]
    | harr elems props =>
      simp only [setFieldH, hlk] at hset
      by_cases hidx : isIdx k
      · by_cases hlen : decVal k.data < elems.length
        · rw [if_pos hidx, if_pos hlen] at hset
          cases hset
          show getFieldH ⟨(a, .harr (elems.set (decVal k.data) w) props) :: st.heap, st.next⟩
            (.ref a) k' = _
          simp only [getFieldH, lookupH_prepend_self, hlk]
          by_cases hidx' : isIdx k'
          · rw [if_pos hidx', if_pos hidx']
            have hij : decVal k.data ≠ decVal k'.data := by
              intro hcontra
              exact hne (isIdx_inj k' k hidx' hidx hcontra.symm)
            rw [List.get?_eq_getElem?, List.get?_eq_getElem?,
              List.getElem?_set_ne hij]
          · rw [if_neg hidx', if_neg hidx']
        · rw [if_pos hidx, if_neg hlen] at hset
          cases hset
          show getFieldH ⟨(a, .harr elems (fieldSet props k w)) :: st.heap, st.next⟩
            (.ref a) k' = _
          simp only [getFieldH, lookupH_prepend_self, hlk]
          by_cases hidx' : isIdx k'
          · rw [if_pos hidx', if_pos hidx', fieldSet_lookup_ne props k k' w hne]
          · rw [if_neg hidx', if_neg hidx', fieldSet_lookup_ne props k k' w hne]
      · rw [if_neg hidx] at hset
        cases hset
        show getFieldH ⟨(a, .harr elems (fieldSet props k w)) :: st.heap, st.next⟩
          (.ref a) k' = _
        simp only [getFieldH, lookupH_prepend_self, hlk]
        by_cases hidx' : isIdx k'
        · rw [if_pos hidx', if_pos hidx', fieldSet_lookup_ne props k k' w hne]
        · rw [if_neg hidx', if_neg hidx', fieldSet_lookup_ne props k k' w hne]

theorem getFieldH_congr {st st' : Store} {N : Nat} {v : HVal} (k : String)
    (hv : refBelow N v = true)
    (hag : ∀ x, x < N → lookupH st'.heap x = lookupH st.heap x) :
    getFieldH st' v k = getFieldH st v k := by
  cases v with
  | atom w => rfl
  | ref b =>
    have hb : b < N := by simpa [refBelow] using hv
    simp only [getFieldH, hag b hb]

theorem hvIsArr_congr {st st' : Store} {N : Nat} {v : HVal}
    (hv : refBelow N v = true)
    (hag : ∀ x, x < N → lookupH st'.heap x = lookupH st.heap x) :
    hvIsArr st' v = hvIsArr st v := by
  cases v with
  | atom w => rfl
  | ref b =>
    have hb : b < N := by simpa [refBelow] using hv
    simp only [hvIsArr, hag b hb]

theorem OldOk_node {st : Store} {N : Nat} {b : Nat} {nd : HNode}
    (hold : OldOk N st.heap = true) (hb : b < N)
    (hlk : lookupH st.heap b = some nd) : nodeOkSrc N nd = true := by
  rw [OldOk, List.all_eq_true] at hold
  have := hold (b, nd) (lookupH_mem hlk)
  simpa [hb] using this

theorem getFieldH_refBelow {st : Store} {N : Nat} {src : HVal} (k : String)
    (hold : OldOk N st.heap = true) (hsrc : refBelow N src = true) :
    refBelow N (getFieldH st src k) = true := by
  cases src with
  | atom w => rfl
  | ref b =>
    have hb : b < N := by simpa [refBelow] using hsrc
    cases hlk : lookupH st.heap b with
    | none => simp [getFieldH, hlk, refBelow]
    | some nd =>
      have hnode := OldOk_node hold hb hlk
      cases nd with
      | hobj fields =>
        simp only [nodeOkSrc, Bool.and_eq_true, List.all_eq_true] at hnode
        simp only [getFieldH, hlk]
        cases hlkv : fields.lookup k with
        | none => simp [refBelow]
        | some v =>
          obtain ⟨k', hmem⟩ := lookup_mem_val hlkv
          simpa using hnode.1 (k', v) hmem
      | harr elems props =>
        simp only [nodeOkSrc, Bool.and_eq_true, List.all_eq_true] at hnode
        simp only [getFieldH, hlk]
        by_cases hidx : isIdx k
        · rw [if_pos hidx]
          cases hget : elems.get? (decVal k.data) with
          | some w =>
            have hmem : w ∈ elems := by
              rw [List.get?_eq_getElem?] at hget
              exact List.getElem?_mem hget
            exact hnode.1.1.1 w hmem
          | none =>
            cases hlkv : props.lookup k with
            | none => simp [refBelow]
            | some v =>
              obtain ⟨k', hmem⟩ := lookup_mem_val hlkv
              simpa using hnode.1.1.2 (k', v) hmem
        · rw [if_neg hidx]
          cases hlkv : props.lookup k with
          | none => simp [refBelow]
          | some v =>
            obtain ⟨k', hmem⟩ := lookup_mem_val hlkv
            simpa using hnode.1.1.2 (k', v) hmem

theorem OldOk_of_entries {N : Nat} {h h0 : Heap} (hold : OldOk N h0 = true)
    (hent : ∀ p ∈ h, p ∈ h0 ∨ N ≤ p.1) : OldOk N h = true := by
  rw [OldOk, List.all_eq_true]
  rw [OldOk, List.all_eq_true] at hold
  intro p hp
  by_cases hlt : p.1 < N
  · rcases hent p hp with h1 | h1
    · exact hold p h1
    · omega
  · simp [hlt]

theorem dmFold_frozen (recur : Store → HVal → HVal → Except String Store)
    (tgt src : HVal) (e : String) :
    ∀ ks : List String,
      ks.foldl (deepMergeBody recur tgt src) (.error e) = .error e := by
  intro ks
  induction ks with
  | nil => rfl
  | cons k ks ih => exact ih

theorem string_mk_inj : ∀ {a b : List Char}, String.mk a = String.mk b → a = b :=
  fun h => congrArg String.data h

theorem forInKeysH_nodup {st : Store} {N : Nat} {src : HVal}
    (hold : OldOk N st.heap = true) (hsrc : refBelow N src = true) :
    (forInKeysH st src).Nodup := by
  cases src with
  | atom w => exact List.nodup_nil
  | ref b =>
    have hb : b < N := by simpa [refBelow] using hsrc
    cases hlk : lookupH st.heap b with
    | none => simp [forInKeysH, hlk]
    | some nd =>
      have hnode := OldOk_node hold hb hlk
      cases nd with
      | hobj fields =>
        simp only [nodeOkSrc, Bool.and_eq_true, decide_eq_true_eq] at hnode
        simpa [forInKeysH, hlk] using hnode.2
      | harr elems props =>
        simp only [nodeOkSrc, Bool.and_eq_true, decide_eq_true_eq,
          List.all_eq_true] at hnode
        simp only [forInKeysH, hlk]
        rw [List.nodup_append]
        refine ⟨?_, hnode.1.2, ?_⟩
        · refine List.Nodup.map ?_ (List.nodup_range _)
          intro i j hij
          exact natDec_inj i j (string_mk_inj hij)
        · intro x hx hy
          obtain ⟨i, -, hxi⟩ := List.mem_map.mp hx
          have hxidx : isIdx x = true := hxi ▸ isIdx_natDec i
          obtain ⟨kv, hkv, hkx⟩ := List.mem_map.mp hy
          have := hnode.2 kv hkv
          rw [hkx] at this
          simp [hxidx] at this

theorem certFields_cons_inv {h : Heap} {lo hi : Nat} {k0 : String} {v0 : HVal}
    {rest : List (String × HVal)} (hc : CertFields h lo hi ((k0, v0) :: rest)) :
    ∃ mid, CertV h lo mid v0 ∧ CertFields h mid hi rest := by
  cases hc
  rename_i mid hv hf
  exact ⟨mid, hv, hf⟩

theorem certList_cons_inv {h : Heap} {lo hi : Nat} {v0 : HVal}
    {rest : List HVal} (hc : CertList h lo hi (v0 :: rest)) :
    ∃ mid, CertV h lo mid v0 ∧ CertList h mid hi rest := by
  cases hc
  rename_i mid hv hl
  exact ⟨mid, hv, hl⟩

theorem certFields_R (h : Heap) :
    ∀ (fields : List (String × HVal)) (lo hi : Nat), CertFields h lo hi fields →
    ∃ R : String → Nat,
      (∀ k b, fields.lookup k = some (.ref b) →
        CertV h (R k) (b + 1) (.ref b) ∧ lo ≤ R k ∧ b < hi) ∧
      (∀ k k' b b', k ≠ k' → fields.lookup k = some (.ref b) →
        fields.lookup k' = some (.ref b') → (b + 1 ≤ R k' ∨ b' + 1 ≤ R k)) := by
  intro fields
  induction fields with
  | nil =>
    intro lo hi _
    exact ⟨fun _ => lo, fun k b hlk => absurd hlk (by simp [List.lookup]),
      fun k k' b b' _ hlk => absurd hlk (by simp [List.lookup])⟩
  | cons kv rest ih =>
    intro lo hi hc
    obtain ⟨k0, v0⟩ := kv
    obtain ⟨mid, hv, hf⟩ := certFields_cons_inv hc
    obtain ⟨R', h1', h2'⟩ := ih mid hi hf
    have hlomid : lo ≤ mid := CertV_le hv
    have hmidhi : mid ≤ hi := CertFields_le hf
    refine ⟨fun k => if k = k0 then lo else R' k, ?_, ?_⟩
    · intro k b hlk
      by_cases hk : k = k0
      · rw [hk, lookup_cons_self] at hlk
        have hv0 : v0 = .ref b := Option.some.injEq _ _ ▸ hlk
        subst hv0
        obtain ⟨hmid, hlob, -⟩ := CertV_ref_inv hv
        have hca : CertV h (if k = k0 then lo else R' k) (b + 1) (.ref b) := by
          rw [if_pos hk, ← hmid]
          exact hv
        have hcb : lo ≤ (if k = k0 then lo else R' k) := by
          rw [if_pos hk]
        exact ⟨hca, hcb, by omega⟩
      · rw [lookup_cons_ne k0 k v0 rest hk] at hlk
        obtain ⟨hc1, hlo1, hhi1⟩ := h1' k b hlk
        have hca : CertV h (if k = k0 then lo else R' k) (b + 1) (.ref b) := by
          rw [if_neg hk]
          exact hc1
        have hcb : lo ≤ (if k = k0 then lo else R' k) := by
          rw [if_neg hk]
          omega
        exact ⟨hca, hcb, hhi1⟩
    · intro k k' b b' hkk hlk hlk'
      by_cases hk : k = k0
      · rw [hk, lookup_cons_self] at hlk
        have hv0 : v0 = .ref b := Option.some.injEq _ _ ▸ hlk
        subst hv0
        obtain ⟨hmid, -, -⟩ := CertV_ref_inv hv
        have hk' : k' ≠ k0 := fun hcontra => hkk (hk.trans hcontra.symm)
        rw [lookup_cons_ne k0 k' _ rest hk'] at hlk'
        obtain ⟨-, hlo', -⟩ := h1' k' b' hlk'
        left
        have hres : b + 1 ≤ (if k' = k0 then lo else R' k') := by
          rw [if_neg hk']
          omega
        exact hres
      · rw [lookup_cons_ne k0 k v0 rest hk] at hlk
        by_cases hk' : k' = k0
        · rw [hk', lookup_cons_self] at hlk'
          have hv0 : v0 = .ref b' := Option.some.injEq _ _ ▸ hlk'
          subst hv0
          obtain ⟨hmid, -, -⟩ := CertV_ref_inv hv
          obtain ⟨-, hlo1, -⟩ := h1' k b hlk
          right
          have hres : b' + 1 ≤ (if k = k0 then lo else R' k) := by
            rw [if_neg hk]
            omega
          exact hres
        · rw [lookup_cons_ne k0 k' v0 rest hk'] at hlk'
          rcases h2' k k' b b' hkk hlk hlk' with hside | hside
          · left
            have hres : b + 1 ≤ (if k' = k0 then lo else R' k') := by
              rw [if_neg hk']
              exact hside
            exact hres
          · right
            have hres : b' + 1 ≤ (if k = k0 then lo else R' k) := by
              rw [if_neg hk]
              exact hside
            exact hres

theorem certList_R (h : Heap) :
    ∀ (elems : List HVal) (lo hi : Nat), CertList h lo hi elems →
    ∃ R : Nat → Nat,
      (∀ i b, elems.get? i = some (.ref b) →
        CertV h (R i) (b + 1) (.ref b) ∧ lo ≤ R i ∧ b < hi) ∧
      (∀ i i' b b', i ≠ i' → elems.get? i = some (.ref b) →
        elems.get? i' = some (.ref b') → (b + 1 ≤ R i' ∨ b' + 1 ≤ R i)) := by
  intro elems
  induction elems with
  | nil =>
    intro lo hi _
    exact ⟨fun _ => lo, fun i b hlk => absurd hlk (by simp),
      fun i i' b b' _ hlk => absurd hlk (by simp)⟩
  | cons v0 rest ih =>
    intro lo hi hc
    obtain ⟨mid, hv, hl⟩ := certList_cons_inv hc
    obtain ⟨R', h1', h2'⟩ := ih mid hi hl
    have hlomid : lo ≤ mid := CertV_le hv
    have hmidhi : mid ≤ hi := CertList_le hl
    refine ⟨fun i => match i with | 0 => lo | i + 1 => R' i, ?_, ?_⟩
    · intro i b hlk
      match i with
      | 0 =>
        have hv0 : v0 = .ref b := by simpa using hlk
        subst hv0
        obtain ⟨hmid, hlob, -⟩ := CertV_ref_inv hv
        have hca : CertV h lo (b + 1) (.ref b) := by
          rw [← hmid]
          exact hv
        exact ⟨hca, Nat.le_refl _, by omega⟩
      | i + 1 =>
        have hlk' : rest.get? i = some (.ref b) := by simpa using hlk
        obtain ⟨hc1, hlo1, hhi1⟩ := h1' i b hlk'
        have hcb : lo ≤ R' i := by omega
        exact ⟨hc1, hcb, hhi1⟩
    · intro i i' b b' hii hlk hlk'
      match i, i' with
      | 0, 0 => exact absurd rfl hii
      | 0, i' + 1 =>
        have hv0 : v0 = .ref b := by simpa using hlk
        subst hv0
        obtain ⟨hmid, -, -⟩ := CertV_ref_inv hv
        have hg' : rest.get? i' = some (.ref b') := by simpa using hlk'
        obtain ⟨-, hlo', -⟩ := h1' i' b' hg'
        left
        have hres : b + 1 ≤ R' i' := by omega
        exact hres
      | i + 1, 0 =>
        have hv0 : v0 = .ref b' := by simpa using hlk'
        subst hv0
        obtain ⟨hmid, -, -⟩ := CertV_ref_inv hv
        have hg : rest.get? i = some (.ref b) := by simpa using hlk
        obtain ⟨-, hlo1, -⟩ := h1' i b hg
        right
        have hres : b' + 1 ≤ R' i := by omega
        exact hres
      | i + 1, i'' + 1 =>
        have hg : rest.get? i = some (.ref b) := by simpa using hlk
        have hg' : rest.get? i'' = some (.ref b') := by simpa using hlk'
        rcases h2' i i'' b b' (by omega) hg hg' with hside | hside
        · left
          exact hside
        · right
          exact hside

theorem node_R {st0 : Store} {a lo : Nat}
    (hc : CertV st0.heap lo (a + 1) (.ref a)) :
    ∃ R : String → Nat,
      (∀ k b, getFieldH st0 (.ref a) k = .ref b →
        CertV st0.heap (R k) (b + 1) (.ref b) ∧ lo ≤ R k ∧ b < a) ∧
      (∀ k k' b b', k ≠ k' → getFieldH st0 (.ref a) k = .ref b →
        getFieldH st0 (.ref a) k' = .ref b' → (b + 1 ≤ R k' ∨ b' + 1 ≤ R k)) := by
  cases hc with
  | obj _ _ fields hlk hcf =>
    obtain ⟨R, h1, h2⟩ := certFields_R st0.heap fields lo a hcf
    have hval : ∀ k b, getFieldH st0 (.ref a) k = .ref b →
        fields.lookup k = some (.ref b) := by
      intro k b hget
      simp only [getFieldH, hlk] at hget
      cases hlkv : fields.lookup k with
      | none => rw [hlkv] at hget; exact absurd hget (by simp)
      | some v =>
        rw [hlkv] at hget
        exact congrArg some (show v = HVal.ref b from hget)
    exact ⟨R, fun k b hg => h1 k b (hval k b hg),
      fun k k' b b' hkk hg hg' => h2 k k' b b' hkk (hval k b hg) (hval k' b' hg')⟩
  | arr _ _ elems hlk hcl =>
    obtain ⟨R, h1, h2⟩ := certList_R st0.heap elems lo a hcl
    have hval : ∀ k b, getFieldH st0 (.ref a) k = .ref b →
        isIdx k = true ∧ elems.get? (decVal k.data) = some (.ref b) := by
      intro k b hget
      simp only [getFieldH, hlk] at hget
      by_cases hidx : isIdx k
      · rw [if_pos hidx] at hget
        cases hg2 : elems.get? (decVal k.data) with
        | none =>
          rw [hg2] at hget
          exact absurd hget (by simp [List.lookup])
        | some w =>
          rw [hg2] at hget
          exact ⟨hidx, congrArg some (show w = HVal.ref b from hget)⟩
      · rw [if_neg hidx] at hget
        exact absurd hget (by simp [List.lookup])
    refine ⟨fun k => R (decVal k.data), ?_, ?_⟩
    · intro k b hg
      obtain ⟨-, hgot⟩ := hval k b hg
      exact h1 (decVal k.data) b hgot
    · intro k k' b b' hkk hg hg'
      obtain ⟨hidx, hgot⟩ := hval k b hg
      obtain ⟨hidx', hgot'⟩ := hval k' b' hg'
      refine h2 (decVal k.data) (decVal k'.data) b b' ?_ hgot hgot'
      intro hcontra
      exact hkk (isIdx_inj k k' hidx hidx' hcontra)

theorem getFieldH_node_congr {st1 st0 : Store} {a : Nat} (k : String)
    (h : lookupH st1.heap a = lookupH st0.heap a) :
    getFieldH st1 (.ref a) k = getFieldH st0 (.ref a) k := by
  simp only [getFieldH, h]

theorem deepMergeH_frame :
    ∀ (fuel : Nat) (st : Store) (tgt src : HVal) (st2 : Store) (N lo hi : Nat),
      deepMergeH fuel st tgt src = .ok st2 →
      CertV st.heap lo hi tgt →
      N ≤ lo → hi ≤ st.next →
      OldOk N st.heap = true →
      refBelow N src = true →
      (∀ x, x < lo ∨ (hi ≤ x ∧ x < st.next) → lookupH st2.heap x = lookupH st.heap x) ∧
      st.next ≤ st2.next ∧
      (∀ p ∈ st2.heap, p ∈ st.heap ∨ N ≤ p.1) := by
  intro fuel
  induction fuel with
  | zero =>
    intro st tgt src st2 N lo hi hrun _ _ _ _ _
    exact absurd hrun (by simp [deepMergeH])
  | succ fuel IH =>
    intro st tgt src st2 N lo hi hrun hcert hNlo hhi hold hsrc
    have hrun' : (forInKeysH st src).foldl
        (deepMergeBody (deepMergeH fuel) tgt src) (.ok st) = .ok st2 := hrun
    clear hrun
    cases tgt with
    | atom w =>
      have hhilo : hi = lo := CertV_atom_inv hcert
      cases hks : forInKeysH st src with
      | nil =>
        rw [hks] at hrun'
        have hst : st = st2 := by simpa using hrun'
        subst hst
        exact ⟨fun x _ => rfl, Nat.le_refl _, fun p hp => Or.inl hp⟩
      | cons k ks =>
        rw [hks, List.foldl_cons] at hrun'
        have hbody : deepMergeBody (deepMergeH fuel) (.atom w) src (.ok st) k =
            .error "Cannot create property on a primitive value" := by
          simp only [deepMergeBody]
          by_cases hcond : (hvTruthy (getFieldH st src k) &&
              hvIsObjectType (getFieldH st src k) &&
              !hvIsArr st (getFieldH st src k)) = true
          · rw [if_pos hcond]
            rfl
          · rw [if_neg hcond]
            rfl
        rw [hbody, dmFold_frozen] at hrun'
        exact absurd hrun' (by simp)
    | ref a =>
      obtain ⟨hhi_eq, hloa, ⟨nd0, hnd0⟩⟩ := CertV_ref_inv hcert
      subst hhi_eq
      obtain ⟨R, hR1, hR2⟩ := node_R hcert
      have hksnd : (forInKeysH st src).Nodup := forInKeysH_nodup hold hsrc
      suffices INNER : ∀ ks : List String, ks.Nodup →
          ∀ st' : Store,
            st.next ≤ st'.next →
            (∀ x, x < lo ∨ (a < x ∧ x < st.next) →
              lookupH st'.heap x = lookupH st.heap x) →
            (∀ k ∈ ks, getFieldH st' (.ref a) k = getFieldH st (.ref a) k) →
            (∀ k ∈ ks, ∀ b, getFieldH st (.ref a) k = .ref b →
              CertV st'.heap (R k) (b + 1) (.ref b)) →
            (∃ nd, lookupH st'.heap a = some nd) →
            (∀ p ∈ st'.heap, p ∈ st.heap ∨ N ≤ p.1) →
            ks.foldl (deepMergeBody (deepMergeH fuel) (.ref a) src) (.ok st') = .ok st2 →
            (∀ x, x < lo ∨ (a < x ∧ x < st.next) →
              lookupH st2.heap x = lookupH st.heap x) ∧
            st'.next ≤ st2.next ∧
            (∀ p ∈ st2.heap, p ∈ st.heap ∨ N ≤ p.1) by
        obtain ⟨hf, hn, he⟩ := INNER (forInKeysH st src) hksnd st (Nat.le_refl _)
          (fun _ _ => rfl) (fun _ _ => rfl)
          (fun k _ b hb => (hR1 k b hb).1) ⟨nd0, hnd0⟩ (fun _ hp => Or.inl hp) hrun'
        refine ⟨?_, hn, he⟩
        intro x hx
        apply hf
        rcases hx with h1 | h1
        · exact Or.inl h1
        · exact Or.inr ⟨by omega, h1.2⟩
      intro ks
      induction ks with
      | nil =>
        intro _ st' hnext hframe _ _ _ hent hfold
        have hst : st' = st2 := by simpa using hfold
        subst hst
        exact ⟨hframe, Nat.le_refl _, hent⟩
      | cons k ks ihk =>
        intro hnd st' hnext hframe hvals hcerts hnode hent hfold
        have hkni : k ∉ ks := (List.nodup_cons.mp hnd).1
        have hndks : ks.Nodup := (List.nodup_cons.mp hnd).2
        rw [List.foldl_cons] at hfold
        have hold' : OldOk N st'.heap = true := OldOk_of_entries hold hent
        have hframeN : ∀ x, x < N → lookupH st'.heap x = lookupH st.heap x :=
          fun x hx => hframe x (Or.inl (by omega))
        have hsrcv_eq : getFieldH st' src k = getFieldH st src k :=
          getFieldH_congr k hsrc hframeN
        have hsrcvB : refBelow N (getFieldH st' src k) = true := by
          rw [hsrcv_eq]
          exact getFieldH_refBelow k hold hsrc
        obtain ⟨nd', hnd'⟩ := hnode
        have hvk := hvals k (List.mem_cons_self k ks)
        by_cases hcond : (hvTruthy (getFieldH st' src k) &&
            hvIsObjectType (getFieldH st' src k) &&
            !hvIsArr st' (getFieldH st' src k)) = true
        · by_cases htv : hvTruthy (getFieldH st' (.ref a) k) = true
          · -- truthy target field: self-assign, then recursive merge
            have hstep : deepMergeBody (deepMergeH fuel) (.ref a) src (.ok st') k =
                match setFieldH st' (.ref a) k (getFieldH st' (.ref a) k) with
                | .error e => .error e
                | .ok stW => deepMergeH fuel stW (getFieldH st' (.ref a) k)
                    (getFieldH st' src k) := by
              simp only [deepMergeBody]
              rw [if_pos hcond, if_pos htv]
            obtain ⟨ndW, hset⟩ := @setFieldH_shape st' a k
              (getFieldH st' (.ref a) k) nd' hnd'
            rw [hstep] at hfold
            simp only [hset] at hfold
            cases tvshape : getFieldH st (.ref a) k with
            | atom w' =>
              have htv_eq : getFieldH st' (.ref a) k = .atom w' := hvk.trans tvshape
              rw [htv_eq] at hfold
              cases hrec : deepMergeH fuel ⟨(a, ndW) :: st'.heap, st'.next⟩
                  (.atom w') (getFieldH st' src k) with
              | error e =>
                rw [hrec, dmFold_frozen] at hfold
                exact absurd hfold (by simp)
              | ok stX =>
                rw [hrec] at hfold
                have hentW : ∀ p ∈ ((a, ndW) :: st'.heap), p ∈ st.heap ∨ N ≤ p.1 := by
                  intro p hp
                  rcases List.mem_cons.mp hp with h1 | h1
                  · right
                    rw [h1]
                    omega
                  · exact hent p h1
                obtain ⟨hfX, hnX, heX⟩ := IH ⟨(a, ndW) :: st'.heap, st'.next⟩
                  (.atom w') (getFieldH st' src k) stX N st'.next st'.next hrec
                  (.atom _ _ w') (by omega) (Nat.le_refl _)
                  (OldOk_of_entries hold hentW) hsrcvB
                have hnX' : st'.next ≤ stX.next := hnX
                have hfX' : ∀ x, x < st'.next →
                    lookupH stX.heap x = lookupH ((a, ndW) :: st'.heap) x :=
                  fun x hx => hfX x (Or.inl hx)
                obtain ⟨hf2, hn2, he2⟩ := ihk hndks stX (by omega)
                  (fun x hx => by
                    rw [hfX' x (by rcases hx with h1 | h1 <;> omega),
                      lookupH_prepend_ne _ _ _ _ (by rcases hx with h1 | h1 <;> omega)]
                    exact hframe x hx)
                  (fun k'' hk'' => by
                    have hne : k'' ≠ k := fun hcontra => hkni (hcontra ▸ hk'')
                    rw [@getFieldH_node_congr stX ⟨(a, ndW) :: st'.heap, st'.next⟩
                        a k'' (hfX' a (by omega)),
                      getFieldH_set_ne hset hne]
                    exact hvals k'' (List.mem_cons_of_mem k hk''))
                  (fun k'' hk'' b hb => by
                    have hba : b < a := (hR1 k'' b hb).2.2
                    refine CertV_transfer
                      (CertV_transfer (hcerts k'' (List.mem_cons_of_mem k hk'') b hb)
                        ((a, ndW) :: st'.heap)
                        (fun x _ hx2 => lookupH_prepend_ne _ _ _ _ (by omega)))
                      stX.heap (fun x _ hx2 => hfX' x (by omega)))
                  ⟨ndW, by rw [hfX' a (by omega)]; exact lookupH_prepend_self _ _ _⟩
                  (fun p hp => by
                    rcases heX p hp with h1 | h1
                    · exact hentW p h1
                    · exact Or.inr h1)
                  hfold
                exact ⟨hf2, by omega, he2⟩
            | ref b =>
              have htv_eq : getFieldH st' (.ref a) k = .ref b := hvk.trans tvshape
              rw [htv_eq] at hfold
              have hcSt' : CertV st'.heap (R k) (b + 1) (.ref b) :=
                hcerts k (List.mem_cons_self k ks) b tvshape
              have hba : b < a := (hR1 k b tvshape).2.2
              have hRlo : lo ≤ R k := (hR1 k b tvshape).2.1
              have hcW : CertV ((a, ndW) :: st'.heap) (R k) (b + 1) (.ref b) :=
                CertV_transfer hcSt' _
                  (fun x _ hx2 => lookupH_prepend_ne _ _ _ _ (by omega))
              cases hrec : deepMergeH fuel ⟨(a, ndW) :: st'.heap, st'.next⟩
                  (.ref b) (getFieldH st' src k) with
              | error e =>
                rw [hrec, dmFold_frozen] at hfold
                exact absurd hfold (by simp)
              | ok stX =>
                rw [hrec] at hfold
                have hentW : ∀ p ∈ ((a, ndW) :: st'.heap), p ∈ st.heap ∨ N ≤ p.1 := by
                  intro p hp
                  rcases List.mem_cons.mp hp with h1 | h1
                  · right
                    rw [h1]
                    omega
                  · exact hent p h1
                obtain ⟨hfX, hnX, heX⟩ := IH ⟨(a, ndW) :: st'.heap, st'.next⟩
                  (.ref b) (getFieldH st' src k) stX N (R k) (b + 1) hrec hcW
                  (by omega) (show b + 1 ≤ st'.next by omega)
                  (OldOk_of_entries hold hentW) hsrcvB
                have hnX' : st'.next ≤ stX.next := hnX
                have hframeX : ∀ x, x < R k ∨ (b + 1 ≤ x ∧ x < st'.next) →
                    lookupH stX.heap x = lookupH ((a, ndW) :: st'.heap) x := hfX
                obtain ⟨hf2, hn2, he2⟩ := ihk hndks stX (by omega)
                  (fun x hx => by
                    have hxsub : x < R k ∨ (b + 1 ≤ x ∧ x < st'.next) := by
                      rcases hx with h1 | h1
                      · left
                        omega
                      · right
                        omega
                    rw [hframeX x hxsub,
                      lookupH_prepend_ne _ _ _ _ (by rcases hx with h1 | h1 <;> omega)]
                    exact hframe x hx)
                  (fun k'' hk'' => by
                    have hne : k'' ≠ k := fun hcontra => hkni (hcontra ▸ hk'')
                    rw [@getFieldH_node_congr stX ⟨(a, ndW) :: st'.heap, st'.next⟩
                        a k'' (hframeX a (Or.inr ⟨by omega, by omega⟩)),
                      getFieldH_set_ne hset hne]
                    exact hvals k'' (List.mem_cons_of_mem k hk''))
                  (fun k'' hk'' b'' hb'' => by
                    have hba'' : b'' < a := (hR1 k'' b'' hb'').2.2
                    have hne : k'' ≠ k := fun hcontra => hkni (hcontra ▸ hk'')
                    have hdisj := hR2 k'' k b'' b hne hb'' tvshape
                    refine CertV_transfer
                      (CertV_transfer (hcerts k'' (List.mem_cons_of_mem k hk'') b'' hb'')
                        ((a, ndW) :: st'.heap)
                        (fun x _ hx2 => lookupH_prepend_ne _ _ _ _ (by omega)))
                      stX.heap (fun x hx1 hx2 => hframeX x ?_)
                    rcases hdisj with h1 | h1
                    · left
                      omega
                    · right
                      constructor
                      · omega
                      · omega)
                  ⟨ndW, by
                    rw [hframeX a (Or.inr ⟨by omega, by omega⟩)]
                    exact lookupH_prepend_self _ _ _⟩
                  (fun p hp => by
                    rcases heX p hp with h1 | h1
                    · exact hentW p h1
                    · exact Or.inr h1)
                  hfold
                exact ⟨hf2, by omega, he2⟩
          · -- falsy target field: allocate a fresh empty object and merge into it
            have hstep : deepMergeBody (deepMergeH fuel) (.ref a) src (.ok st') k =
                match setFieldH ⟨(st'.next, .hobj []) :: st'.heap, st'.next + 1⟩
                    (.ref a) k (.ref st'.next) with
                | .error e => .error e
                | .ok stW => deepMergeH fuel stW (.ref st'.next)
                    (getFieldH st' src k) := by
              simp only [deepMergeBody]
              rw [if_pos hcond, if_neg htv]
            have hndF : lookupH ((st'.next, HNode.hobj []) :: st'.heap) a = some nd' := by
              rw [lookupH_prepend_ne _ _ _ _ (by omega)]
              exact hnd'
            obtain ⟨ndW, hsetF⟩ := @setFieldH_shape
              ⟨(st'.next, .hobj []) :: st'.heap, st'.next + 1⟩ a k
              (HVal.ref st'.next) nd' hndF
            rw [hstep] at hfold
            simp only [hsetF] at hfold
            cases hrec : deepMergeH fuel
                ⟨(a, ndW) :: (st'.next, .hobj []) :: st'.heap, st'.next + 1⟩
                (.ref st'.next) (getFieldH st' src k) with
            | error e =>
              rw [hrec, dmFold_frozen] at hfold
              exact absurd hfold (by simp)
            | ok stX =>
              rw [hrec] at hfold
              have hcW : CertV ((a, ndW) :: (st'.next, HNode.hobj []) :: st'.heap)
                  st'.next (st'.next + 1) (.ref st'.next) := by
                refine CertV.obj _ _ _ [] ?_ (CertFields.nil _ _)
                rw [lookupH_prepend_ne _ _ _ _ (by omega)]
                exact lookupH_prepend_self _ _ _
              have hentW : ∀ p ∈ ((a, ndW) :: (st'.next, HNode.hobj []) :: st'.heap),
                  p ∈ st.heap ∨ N ≤ p.1 := by
                intro p hp
                rcases List.mem_cons.mp hp with h1 | h1
                · right
                  rw [h1]
                  omega
                · rcases List.mem_cons.mp h1 with h2 | h2
                  · right
                    rw [h2]
                    omega
                  · exact hent p h2
              obtain ⟨hfX, hnX, heX⟩ := IH
                ⟨(a, ndW) :: (st'.next, .hobj []) :: st'.heap, st'.next + 1⟩
                (.ref st'.next) (getFieldH st' src k) stX N st'.next (st'.next + 1)
                hrec hcW (by omega) (Nat.le_refl _)
                (OldOk_of_entries hold hentW) hsrcvB
              have hnX' : st'.next + 1 ≤ stX.next := hnX
              have hfX' : ∀ x, x < st'.next → lookupH stX.heap x =
                  lookupH ((a, ndW) :: (st'.next, HNode.hobj []) :: st'.heap) x :=
                fun x hx => hfX x (Or.inl hx)
              obtain ⟨hf2, hn2, he2⟩ := ihk hndks stX (by omega)
                (fun x hx => by
                  rw [hfX' x (by rcases hx with h1 | h1 <;> omega),
                    lookupH_prepend_ne _ _ _ _ (by rcases hx with h1 | h1 <;> omega),
                    lookupH_prepend_ne _ _ _ _ (by rcases hx with h1 | h1 <;> omega)]
                  exact hframe x hx)
                (fun k'' hk'' => by
                  have hne : k'' ≠ k := fun hcontra => hkni (hcontra ▸ hk'')
                  rw [@getFieldH_node_congr stX
                      ⟨(a, ndW) :: (st'.next, .hobj []) :: st'.heap, st'.next + 1⟩
                      a k'' (hfX' a (by omega)),
                    getFieldH_set_ne hsetF hne,
                    @getFieldH_node_congr
                      ⟨(st'.next, .hobj []) :: st'.heap, st'.next + 1⟩ st' a k''
                      (lookupH_prepend_ne st'.heap st'.next a (.hobj []) (by omega))]
                  exact hvals k'' (List.mem_cons_of_mem k hk''))
                (fun k'' hk'' b'' hb'' => by
                  have hba'' : b'' < a := (hR1 k'' b'' hb'').2.2
                  refine CertV_transfer
                    (CertV_transfer (hcerts k'' (List.mem_cons_of_mem k hk'') b'' hb'')
                      ((a, ndW) :: (st'.next, .hobj []) :: st'.heap)
                      (fun x _ hx2 => by
                        rw [lookupH_prepend_ne _ _ _ _ (by omega),
                          lookupH_prepend_ne _ _ _ _ (by omega)]))
                    stX.heap (fun x _ hx2 => hfX' x (by omega)))
                ⟨ndW, by rw [hfX' a (by omega)]; exact lookupH_prepend_self _ _ _⟩
                (fun p hp => by
                  rcases heX p hp with h1 | h1
                  · exact hentW p h1
                  · exact Or.inr h1)
                hfold
              exact ⟨hf2, by omega, he2⟩
        · -- wholesale assignment
          have hstep : deepMergeBody (deepMergeH fuel) (.ref a) src (.ok st') k =
              setFieldH st' (.ref a) k (getFieldH st' src k) := by
            simp only [deepMergeBody]
            rw [if_neg hcond]
          obtain ⟨ndW, hset⟩ := @setFieldH_shape st' a k
            (getFieldH st' src k) nd' hnd'
          rw [hstep] at hfold
          simp only [hset] at hfold
          obtain ⟨hf2, hn2, he2⟩ := ihk hndks ⟨(a, ndW) :: st'.heap, st'.next⟩ hnext
            (fun x hx => by
              rw [lookupH_prepend_ne _ _ _ _ (by rcases hx with h1 | h1 <;> omega)]
              exact hframe x hx)
            (fun k'' hk'' => by
              have hne : k'' ≠ k := fun hcontra => hkni (hcontra ▸ hk'')
              rw [getFieldH_set_ne hset hne]
              exact hvals k'' (List.mem_cons_of_mem k hk''))
            (fun k'' hk'' b'' hb'' => by
              have hba'' : b'' < a := (hR1 k'' b'' hb'').2.2
              exact CertV_transfer (hcerts k'' (List.mem_cons_of_mem k hk'') b'' hb'')
                ((a, ndW) :: st'.heap)
                (fun x _ hx2 => lookupH_prepend_ne _ _ _ _ (by omega)))
            ⟨ndW, lookupH_prepend_self _ _ _⟩
            (fun p hp => by
              rcases List.mem_cons.mp hp with h1 | h1
              · right
                rw [h1]
                omega
              · exact hent p h1)
            hfold
          exact ⟨hf2, hn2, he2⟩

/-- C10: `merge` never mutates its target.  `mergeH` clones the target
by a serialize/deserialize round trip, allocates the clone at fresh
addresses, and performs every write of the merge walk on the clone (or
on still fresher allocations), so every pre-existing address of a
well-formed store — bound values in store, object field names distinct,
array extra properties non-index — reads the same node after the call.
The target value itself, and everything else already in the store, is
structurally unchanged. -/
theorem merge_does_not_mutate_target (cfg : Config) (fuel : Nat) (st : Store)
    (target source : HVal) (st2 : Store) (v : HVal)
    (hrun : mergeH cfg fuel st target source = .ok (st2, v))
    (hold : OldOk st.next st.heap = true)
    (hsrc : refBelow st.next source = true) :
    ∀ x, x < st.next → lookupH st2.heap x = lookupH st.heap x := by
  unfold mergeH at hrun
  cases hs : serializeH cfg st.heap fuel target none 0 with
  | error e =>
    simp only [hs] at hrun
    exact absurd hrun (by simp)
  | ok text =>
    simp only [hs] at hrun
    cases hd : deserialize cfg text with
    | error e =>
      simp only [hd] at hrun
      exact absurd hrun (by simp)
    | ok val =>
      simp only [hd] at hrun
      obtain ⟨han, haf, ham, hac⟩ := allocH_spec st val
      cases hm : deepMergeH fuel (allocH st val).1 (allocH st val).2 source with
      | error e =>
        simp only [hm] at hrun
        exact absurd hrun (by simp)
      | ok stM =>
        simp only [hm] at hrun
        have hst2 : stM = st2 := by
          injection hrun with hpair
          injection hpair with h1 h2
        subst hst2
        obtain ⟨hf, hn, he⟩ := deepMergeH_frame fuel (allocH st val).1
          (allocH st val).2 source stM st.next st.next (allocH st val).1.next
          hm hac (Nat.le_refl _) (Nat.le_refl _)
          (OldOk_of_entries hold ham) hsrc
        intro x hx
        rw [hf x (Or.inl hx), haf x hx]

theorem merge_does_not_mutate_target_witness :
    mergeH defaultConfig 10
        ⟨[(0, .hobj [("a", .atom (.num (.int 1)))]),
          (1, .hobj [("b", .atom (.num (.int 2)))])], 2⟩
        (.ref 0) (.ref 1) =
      .ok (⟨[(2, .hobj [("a", .atom (.num (.int 1))), ("b", .atom (.num (.int 2)))]),
        (2, .hobj [("a", .atom (.num (.int 1)))]),
        (0, .hobj [("a", .atom (.num (.int 1)))]),
        (1, .hobj [("b", .atom (.num (.int 2)))])], 3⟩, .ref 2) ∧
    lookupH [(2, .hobj [("a", .atom (.num (.int 1))), ("b", .atom (.num (.int 2)))]),
        (2, .hobj [("a", .atom (.num (.int 1)))]),
        (0, .hobj [("a", .atom (.num (.int 1)))]),
        (1, .hobj [("b", .atom (.num (.int 2)))])] 0 =
      some (.hobj [("a", .atom (.num (.int 1)))]) ∧
    lookupH [(2, .hobj [("a", .atom (.num (.int 1))), ("b", .atom (.num (.int 2)))]),
        (2, .hobj [("a", .atom (.num (.int 1)))]),
        (0, .hobj [("a", .atom (.num (.int 1)))]),
        (1, .hobj [("b", .atom (.num (.int 2)))])] 1 =
      some (.hobj [("b", .atom (.num (.int 2)))]) := by
  refine ⟨by rfl, ?_, ?_⟩
  · exact (merge_does_not_mutate_target defaultConfig 10
      ⟨[(0, .hobj [("a", .atom (.num (.int 1)))]),
        (1, .hobj [("b", .atom (.num (.int 2)))])], 2⟩
      (.ref 0) (.ref 1)
      ⟨[(2, .hobj [("a", .atom (.num (.int 1))), ("b", .atom (.num (.int 2)))]),
        (2, .hobj [("a", .atom (.num (.int 1)))]),
        (0, .hobj [("a", .atom (.num (.int 1)))]),
        (1, .hobj [("b", .atom (.num (.int 2)))])], 3⟩ (.ref 2)
      (by rfl) (by rfl) (by rfl) 0 (by decide)).trans (by rfl)
  · exact (merge_does_not_mutate_target defaultConfig 10
      ⟨[(0, .hobj [("a", .atom (.num (.int 1)))]),
        (1, .hobj [("b", .atom (.num (.int 2)))])], 2⟩
      (.ref 0) (.ref 1)
      ⟨[(2, .hobj [("a", .atom (.num (.int 1))), ("b", .atom (.num (.int 2)))]),
        (2, .hobj [("a", .atom (.num (.int 1)))]),
        (0, .hobj [("a", .atom (.num (.int 1)))]),
        (1, .hobj [("b", .atom (.num (.int 2)))])], 3⟩ (.ref 2)
      (by rfl) (by rfl) (by rfl) 1 (by decide)).trans (by rfl)

/-! ## Claim 1 — the round trip (code bug)

The round trip holds on a wide concrete value (`c1Flat` covers every
supported kind at flat nesting: `clone` maps it to its `norm`, the
`undefined → null` identification being the only change the claim's
per-kind equivalences allow).  But it fails for sequences whose rendering
crosses the 60-character inline threshold: `serialize` then emits the
one-element-per-line layout, and `parseArray` (riv.js 243–256) cannot
read that layout back, because its inter-element `skip()` consumes only
spaces and tabs (riv.js 131–133), never newlines, so `parseValue` is
invoked on the newline character itself and throws `Invalid token`.  A
31-element sequence of `1`s is a circular-free value of depth 1 — far
inside every configured limit — whose serialization does not
deserialize at all. -/

set_option maxRecDepth 100000 in
/-- C1: divergence of the round-trip claim.  On the concrete all-kinds
value `c1Flat`, `deserialize ∘ serialize` returns exactly the structural
normalization of the input, as the claim demands.  But for the
31-element sequence of `1`s — a supported, circular-free, depth-1 value —
`serialize` succeeds with the multiline text `c1MLText` (which contains a
newline), and `deserialize` of that very text throws `Invalid token`
instead of reproducing the sequence: `deserialize (serialize v)` is not
structurally equivalent to `v`, refuting the claim. -/
theorem roundtrip_divergence_multiline_array :
    clone defaultConfig c1Flat = .ok (norm c1Flat) ∧
    serialize defaultConfig (.arr (List.replicate 31 (.num (.int 1)))) none 0 =
      .ok c1MLText ∧
    hasNl c1MLText = true ∧
    deserialize defaultConfig c1MLText =
      .error "Invalid token '\n' at 1 | Context: \"<\n  1\n  1\n \"" := by
  exact ⟨rfl, rfl, rfl, rfl⟩

end Riv
